import Mathlib

/-!
Verification of the resource-membership core of the flux-core broker.

Part 1 embeds `src/src/modules/kvs/waitqueue.c`: reference-counted wait
objects, waitqueues with a `msgs_on_queue` counter, bulk run
(`wait_runqueue`), selective cancellation (`wait_destroy_msg`) and queue
teardown (`wait_queue_destroy`).  Wait objects are identified by numeric
ids; the heap of live waits and the set of live queues are partial maps
from ids; callback invocations are recorded in an event trace.

Part 2 embeds the membership monitor from
`src/src/modules/resource/` (monitor.c): idset encoding, the
`post_event` / `post_join_leave` event-posting helpers, the streaming
snapshot handlers `broker_online_cb` / `broker_torpid_cb`, and the
`monitor-waitup` / `monitor-force-down` RPC handlers.
-/

set_option maxHeartbeats 1000000

namespace Flux

/-! ### waitqueue.c: data model -/

/-- The `struct handler` sub-record of a wait (`waitqueue.c` lines 21-27).
`cb` models a non-NULL `hand.cb` message-handler callback; `msg` models a
non-NULL `hand.msg` message reference. -/
structure Hand where
  cb : Bool
  msg : Bool
deriving DecidableEq

/-- `struct wait_struct` (`waitqueue.c` lines 30-39): a use-count, an
optional plain callback `cb`, and the optional message-handler record.
The use-count is an `Int`, matching the C `int`. -/
structure WaitObj where
  usecount : Int
  cb : Bool
  hand : Hand
deriving DecidableEq

/-- `struct waitqueue_struct` (`waitqueue.c` lines 42-48): an ordered list
of wait ids plus the `msgs_on_queue` counter. -/
structure WQ where
  elems : List Nat
  msgs_on_queue : Int
deriving DecidableEq

/-- A recorded callback invocation: either the plain callback `w->cb` or
the message-handler callback `w->hand.cb` of wait `wid` fired. -/
inductive FireEv where
  | plain (wid : Nat)
  | hmsg (wid : Nat)
deriving DecidableEq

/-- The wait id an event belongs to. -/
def FireEv.wid : FireEv → Nat
  | .plain w => w
  | .hmsg w => w

/-- Global state of the waitqueue subsystem: live waits, live queues,
fresh-id counters and the trace of callback invocations. -/
structure Sys where
  waits : Nat → Option WaitObj
  queues : Nat → Option WQ
  nextW : Nat
  nextQ : Nat
  trace : List FireEv

/-- The empty initial state: no waits, no queues, empty trace. -/
def Sys.init : Sys := ⟨fun _ => none, fun _ => none, 0, 0, []⟩

/-- Point-update of the wait heap. -/
def setWait (s : Sys) (wid : Nat) (v : Option WaitObj) : Sys :=
  { s with waits := fun k => if k = wid then v else s.waits k }

/-- Point-update of the queue map. -/
def setQueue (s : Sys) (qid : Nat) (v : Option WQ) : Sys :=
  { s with queues := fun k => if k = qid then v else s.queues k }

/-! ### waitqueue.c: operations -/

/-- `wait_create` (lines 55-64): a fresh wait with use-count 0.  `hasCb`
records whether the `cb` argument was non-NULL. -/
def wait_create (hasCb : Bool) (s : Sys) : Sys :=
  { setWait s s.nextW (some ⟨0, hasCb, ⟨false, false⟩⟩) with nextW := s.nextW + 1 }

/-- `wait_create_msg_handler` (lines 66-81): a fresh wait with use-count 0,
no plain callback, a message reference, and a message-handler callback
(`hasCb` records whether the `cb` argument was non-NULL). -/
def wait_create_msg_handler (hasCb : Bool) (s : Sys) : Sys :=
  { setWait s s.nextW (some ⟨0, false, ⟨hasCb, true⟩⟩) with nextW := s.nextW + 1 }

/-- `wait_queue_create` (lines 94-106): a fresh empty queue. -/
def wait_queue_create (s : Sys) : Sys :=
  { setQueue s s.nextQ (some ⟨[], 0⟩) with nextQ := s.nextQ + 1 }

/-- `wait_addqueue` (lines 149-161): append the wait to the queue,
increment its use-count, and bump `msgs_on_queue` if it carries a
message.  If the queue or wait does not exist the C code would trip an
assertion; the model leaves the state unchanged. -/
def wait_addqueue (s : Sys) (qid wid : Nat) : Sys :=
  match s.queues qid, s.waits wid with
  | some q, some w =>
      let s1 := setQueue s qid
        (some ⟨q.elems ++ [wid], q.msgs_on_queue + (if w.hand.msg then 1 else 0)⟩)
      setWait s1 wid (some { w with usecount := w.usecount + 1 })
  | _, _ => s

/-- Side effects of a user callback: a list of `wait_addqueue (qid, wid)`
calls the callback performs, applied in order.  This models user code
that re-queues existing waits while a run is in progress. -/
def applyAdds (s : Sys) : List (Nat × Nat) → Sys
  | [] => s
  | (qid, wid) :: rest => applyAdds (wait_addqueue s qid wid) rest

/-- `wait_runone` (lines 163-172): decrement the use-count; when it
reaches zero, invoke the plain callback if present, otherwise the
message-handler callback if present, then destroy the wait.  The
callback's own `wait_addqueue` side effects are given by `eff` and run
before the wait is destroyed, mirroring the call order in C. -/
def wait_runone (eff : Nat → List (Nat × Nat)) (s : Sys) (wid : Nat) : Sys :=
  match s.waits wid with
  | none => s
  | some w =>
      if w.usecount - 1 = 0 then
        let evs : List FireEv :=
          if w.cb then [.plain wid] else if w.hand.cb then [.hmsg wid] else []
        let s1 := { s with trace := s.trace ++ evs }
        let s2 := if evs.isEmpty then s1 else applyAdds s1 (eff wid)
        setWait s2 wid none
      else setWait s wid (some { w with usecount := w.usecount - 1 })

/-- The `if (w->hand.msg) q->msgs_on_queue--` step of the `wait_runqueue`
loop (line 197-198). -/
def runDecMsg (s : Sys) (qid wid : Nat) : Sys :=
  match s.waits wid, s.queues qid with
  | some w, some q =>
      if w.hand.msg then setQueue s qid (some { q with msgs_on_queue := q.msgs_on_queue - 1 })
      else s
  | _, _ => s

/-- The `while ((w = zlist_pop (cpy)))` loop of `wait_runqueue`
(lines 196-200), iterating over the private copy of the queue. -/
def runLoop (eff : Nat → List (Nat × Nat)) (qid : Nat) (s : Sys) : List Nat → Sys
  | [] => s
  | wid :: rest => runLoop eff qid (wait_runone eff (runDecMsg s qid wid) wid) rest

/-- `zlist_purge (q->q)` (line 195): empty the queue's element list
(`msgs_on_queue` is decremented later, inside the loop). -/
def purgeQueue (s : Sys) (qid : Nat) : Sys :=
  match s.queues qid with
  | some q => setQueue s qid (some { q with elems := [] })
  | none => s

/-- `wait_runqueue` (lines 174-204) on the success path: if the queue is
nonempty, copy its elements, purge it, and process the copy.  `eff`
supplies the `wait_addqueue` side effects of the fired callbacks. -/
def wait_runqueue_eff (eff : Nat → List (Nat × Nat)) (qid : Nat) (s : Sys) : Sys :=
  match s.queues qid with
  | none => s
  | some q =>
      if q.elems.isEmpty then s
      else runLoop eff qid (purgeQueue s qid) q.elems

/-- `wait_runqueue` with callbacks that perform no waitqueue operations. -/
def wait_runqueue (qid : Nat) (s : Sys) : Sys :=
  wait_runqueue_eff (fun _ => []) qid s

/-- `errno` value for a failed allocation. -/
def ENOMEM : Int := 12

/-- `wait_runqueue` (lines 174-204) with the `zlist_dup` allocation made
explicit: `dupOk = false` models `zlist_dup` returning NULL, in which
case the function returns `-1` with `errno = ENOMEM` and the state is
untouched.  Result: `(state, return code, errno)`. -/
def wait_runqueue_c (dupOk : Bool) (qid : Nat) (s : Sys) : Sys × Int × Int :=
  match s.queues qid with
  | none => (s, 0, 0)
  | some q =>
      if q.elems.isEmpty then (s, 0, 0)
      else if dupOk then (wait_runqueue qid s, 0, 0)
      else (s, -1, ENOMEM)

/-- The match condition of the first `wait_destroy_msg` pass (line 243):
the wait has a message and the predicate accepts it.  The predicate is
modelled on the wait id since each message-bearing wait owns exactly one
message. -/
def matchedList (s : Sys) (pred : Nat → Bool) (elems : List Nat) : List Nat :=
  elems.filter fun wid =>
    match s.waits wid with
    | some w => w.hand.msg && pred wid
    | none => false

/-- Clearing pass of `wait_destroy_msg` (line 255): `w->hand.cb = NULL`
for every matched wait, so a later run on another queue will not invoke
the handler. -/
def clearCb (s : Sys) : List Nat → Sys
  | [] => s
  | wid :: rest =>
      clearCb
        (match s.waits wid with
         | some w => setWait s wid (some { w with hand := { w.hand with cb := false } })
         | none => s)
        rest

/-- One iteration of the second `wait_destroy_msg` pass (lines 262-267):
remove the first matching queue entry, decrement `msgs_on_queue`,
decrement the use-count and destroy the wait when it reaches zero.
No callback is invoked. -/
def destroyOne (qid : Nat) (s : Sys) (wid : Nat) : Sys :=
  let s1 :=
    match s.queues qid with
    | some q => setQueue s qid (some ⟨q.elems.erase wid, q.msgs_on_queue - 1⟩)
    | none => s
  match s1.waits wid with
  | some w =>
      if w.usecount - 1 = 0 then setWait s1 wid none
      else setWait s1 wid (some { w with usecount := w.usecount - 1 })
  | none => s1

/-- The second `wait_destroy_msg` pass over the collected `tmp` list. -/
def destroyPass (qid : Nat) (s : Sys) : List Nat → Sys
  | [] => s
  | wid :: rest => destroyPass qid (destroyOne qid s wid) rest

/-- `wait_destroy_msg` (lines 232-278) on the success path: collect the
matching entries in queue order, clear their handler callbacks, then
remove each collected entry from the queue, decrementing counters and
destroying waits whose use-count reaches zero. -/
def wait_destroy_msg (qid : Nat) (pred : Nat → Bool) (s : Sys) : Sys :=
  match s.queues qid with
  | none => s
  | some q =>
      let m := matchedList s pred q.elems
      destroyPass qid (clearCb s m) m

/-- One pop of `wait_queue_destroy` (lines 113-116): decrement the
use-count and destroy the wait at zero, with no callback. -/
def releaseOne (s : Sys) (wid : Nat) : Sys :=
  match s.waits wid with
  | some w =>
      if w.usecount - 1 = 0 then setWait s wid none
      else setWait s wid (some { w with usecount := w.usecount - 1 })
  | none => s

/-- The pop loop of `wait_queue_destroy`. -/
def releasePass (s : Sys) : List Nat → Sys
  | [] => s
  | wid :: rest => releasePass (releaseOne s wid) rest

/-- `wait_queue_destroy` (lines 108-121): pop every entry, releasing one
reference per entry, then free the queue.  Callbacks never fire here. -/
def wait_queue_destroy (qid : Nat) (s : Sys) : Sys :=
  match s.queues qid with
  | none => s
  | some q => setQueue (releasePass s q.elems) qid none

/-! ### waitqueue.c: operation language

The sequences of API calls the claims quantify over: queue/wait creation,
`wait_addqueue`, `wait_runqueue` (with a successful internal allocation
and callbacks that perform no waitqueue operations) and
`wait_destroy_msg`. -/

inductive WQOp where
  | createq
  | createw (hasCb : Bool)
  | createmsg (hasCb : Bool)
  | addq (qid wid : Nat)
  | runq (qid : Nat)
  | delmsg (qid : Nat) (pred : Nat → Bool)

/-- Apply one API call. -/
def applyOp (s : Sys) : WQOp → Sys
  | .createq => wait_queue_create s
  | .createw b => wait_create b s
  | .createmsg b => wait_create_msg_handler b s
  | .addq qid wid => wait_addqueue s qid wid
  | .runq qid => wait_runqueue qid s
  | .delmsg qid pred => wait_destroy_msg qid pred s

/-- Run a sequence of API calls from the empty initial state. -/
def runOps (ops : List WQOp) : Sys :=
  ops.foldl applyOp Sys.init

/-! ### monitor.c: idset encoding

Modelled from the spec: `libidset` is not part of the extracted sources.
The spec gives the encoded grammar `ids := id ("," id)*` with
`id := N | N "-" M` (M ≥ N), and states that `encode(set, RANGE)` is the
canonical sorted range-compressed form. -/

/-- Collapse a sorted list into maximal runs, carrying the current run
`[lo, hi]`. -/
def idsetRuns (lo hi : Nat) : List Nat → List (Nat × Nat)
  | [] => [(lo, hi)]
  | x :: xs => if x = hi + 1 then idsetRuns lo x xs else (lo, hi) :: idsetRuns x x xs

/-- Render one run. -/
def runStr (p : Nat × Nat) : String :=
  if p.1 = p.2 then toString p.1 else toString p.1 ++ "-" ++ toString p.2

/-- Modelled from the spec: `idset_encode (ids, IDSET_FLAG_RANGE)` —
canonical sorted, range-compressed encoding. -/
def idset_encode (s : Finset Nat) : String :=
  match s.sort (· ≤ ·) with
  | [] => ""
  | x :: xs => String.intercalate "," ((idsetRuns x x xs).map runStr)

/-- Parse one `N` or `N-M` token of the idset grammar. -/
def parseIdTok (t : String) : Option (Nat × Nat) :=
  match t.splitOn "-" with
  | [a] => (a.toNat?).map fun n => (n, n)
  | [a, b] =>
      match a.toNat?, b.toNat? with
      | some n, some m => if n ≤ m then some (n, m) else none
      | _, _ => none
  | _ => none

/-- Modelled from the spec: `idset_decode` over the grammar
`ids := id ("," id)*`. -/
def idset_decode (str : String) : Option (Finset Nat) :=
  (str.splitOn ",").foldl
    (fun acc t =>
      match acc, parseIdTok t with
      | some s, some (n, m) => some (s ∪ Finset.Icc n m)
      | _, _ => none)
    (some ∅)

/-- Modelled from the spec: `idset_decode_subtract (target, str, -1, &err)`
parses `str` and subtracts it from `target`; on parse failure it reports a
caller-facing message and leaves `target` unchanged. -/
def idset_decode_subtract (target : Finset Nat) (str : String) :
    Except String (Finset Nat) :=
  match idset_decode str with
  | none => Except.error "error parsing ranks"
  | some ids => Except.ok (target \ ids)

/-- Modelled from the spec: `idset_copy` duplicates a set; copying the
NULL pointer held by a follower's unallocated `up` set fails
(libidset reports EINVAL).  Allocation failures are not modelled. -/
def idset_copy (o : Option (Finset Nat)) : Option (Finset Nat) := o

/-! ### monitor.c: data model -/

/-- `errno` for a protocol error on an RPC. -/
def EPROTO : Int := 71

/-- `errno` for an invalid argument (NULL idset, parse failure). -/
def EINVAL : Int := 22

/-- One entry posted to `resource.eventlog` by `post_event`: the event
name and its `{idset: s}` context string. -/
structure MEvent where
  name : String
  idset : String
deriving DecidableEq

/-- Body of an RPC response: success, or an error with `errno` and an
optional human-readable `errstr`. -/
inductive RespBody where
  | ok
  | err (errnum : Int) (errstr : Option String)
deriving DecidableEq

/-- An RPC response tagged with the id of the request message. -/
structure MResp where
  msgId : Nat
  body : RespBody
deriving DecidableEq

/-- A `resource.monitor-waitup` request: `payload` is the result of
`flux_request_unpack (msg, NULL, "s", "up", &up)`; `none` models a
malformed payload (unpack fails with EPROTO). -/
structure WaitupMsg where
  msgId : Nat
  payload : Option Int
deriving DecidableEq

/-- A `resource.monitor-force-down` request: `payload` is the unpacked
`ranks` string, `none` modelling a malformed payload. -/
structure ForceDownMsg where
  msgId : Nat
  payload : Option String
deriving DecidableEq

/-- `struct monitor` (monitor.c lines 128-139).  On follower ranks the
idsets are never allocated; `up = none` models the NULL `up` pointer.
`torpid` and `lost` are only touched by leader-only code paths, so they
are carried directly.  The cached `down` set is not needed by any claim. -/
structure Monitor where
  rank : Nat
  size : Nat
  up : Option (Finset Nat)
  torpid : Finset Nat
  lost : Finset Nat
  waitup_requests : List WaitupMsg

/-- Monitor-side world state: the monitor, the `resource.eventlog`
contents, and the trace of RPC responses sent. -/
structure MSys where
  mon : Monitor
  eventlog : List MEvent
  responses : List MResp

/-- Append a success response. -/
def respond_ok (ms : MSys) (mid : Nat) : MSys :=
  { ms with responses := ms.responses ++ [⟨mid, .ok⟩] }

/-- Append an error response. -/
def respond_err (ms : MSys) (mid : Nat) (e : Int) (t : Option String) : MSys :=
  { ms with responses := ms.responses ++ [⟨mid, .err e t⟩] }

/-! ### monitor.c: event posting -/

/-- `post_event` (monitor.c lines 232-253): do nothing when the idset is
empty, otherwise encode it and append the event to the log.  `ok` is the
failure oracle for `idset_encode`/`reslog_post_pack`: when it rejects the
event, `post_event` returns failure and the log is not extended. -/
def post_event (ok : String → String → Bool) (log : List MEvent)
    (name : String) (ids : Finset Nat) : Option (List MEvent) :=
  if ids.card = 0 then some log
  else
    let s := idset_encode ids
    if ok name s then some (log ++ [⟨name, s⟩]) else none

/-- `post_join_leave` (monitor.c lines 258-288): compute
`join = newset \ oldset` and `leave = oldset \ newset`, post the join
event then the leave event, and — when `oldset` is the monitor's `up` set
(`oldIsUp` models the `oldset == monitor->up` pointer comparison) —
update `lost` to `(lost ∪ leave) \ join`.  Returns the (possibly
partially extended) log, the new `lost` set, and whether the whole call
succeeded. -/
def post_join_leave (ok : String → String → Bool) (log : List MEvent)
    (lost : Finset Nat) (oldset newset : Finset Nat)
    (join_event leave_event : String) (oldIsUp : Bool) :
    List MEvent × Finset Nat × Bool :=
  let join := newset \ oldset
  let leave := oldset \ newset
  match post_event ok log join_event join with
  | none => (log, lost, false)
  | some log1 =>
      match post_event ok log1 leave_event leave with
      | none => (log1, lost, false)
      | some log2 =>
          if oldIsUp then (log2, (lost ∪ leave) \ join, true)
          else (log2, lost, true)

/-! ### monitor.c: handlers -/

/-- One iteration of the `notify_waitup` loop (monitor.c lines 358-373):
accumulates the requests kept on the deferred list and the responses
sent. -/
def notify_step (upcount : Int) (acc : List WaitupMsg × List MResp)
    (m : WaitupMsg) : List WaitupMsg × List MResp :=
  match m.payload with
  | none => (acc.1, acc.2 ++ [⟨m.msgId, .err EPROTO none⟩])
  | some want =>
      if want = upcount then (acc.1, acc.2 ++ [⟨m.msgId, .ok⟩])
      else (acc.1 ++ [m], acc.2)

/-- `notify_waitup` (monitor.c lines 352-374): walk the deferred list;
answer and drop requests whose desired count equals `count(up)`, answer
and drop malformed requests with the unpack error, keep the rest. -/
def notify_waitup (ms : MSys) : MSys :=
  match ms.mon.up with
  | none => ms
  | some U =>
      let r := ms.mon.waitup_requests.foldl (notify_step (U.card : Int)) ([], [])
      { ms with
        mon := { ms.mon with waitup_requests := r.1 },
        responses := ms.responses ++ r.2 }

/-- `broker_online_cb` (monitor.c lines 294-320).  `snapshot` is the
result of `group_get` (`none` = parse failure, which only logs).  On
posting failure the cached `up` set is kept and the snapshot dropped; on
success `up` and `lost` are committed and `notify_waitup` runs. -/
def broker_online_cb (ok : String → String → Bool) (ms : MSys)
    (snapshot : Option (Finset Nat)) : MSys :=
  match snapshot with
  | none => ms
  | some newup =>
      match ms.mon.up with
      | none => ms
      | some U =>
          let r := post_join_leave ok ms.eventlog ms.mon.lost U newup "online" "offline" true
          if r.2.2 then
            notify_waitup
              { ms with
                eventlog := r.1,
                mon := { ms.mon with up := some newup, lost := r.2.1 } }
          else { ms with eventlog := r.1 }

/-- `broker_torpid_cb` (monitor.c lines 322-350): same shape as
`broker_online_cb` for the torpid group, with events `torpid`/`lively`,
no `lost` update (the diffed old set is not `monitor->up`) and no waitup
notification. -/
def broker_torpid_cb (ok : String → String → Bool) (ms : MSys)
    (snapshot : Option (Finset Nat)) : MSys :=
  match snapshot with
  | none => ms
  | some newt =>
      let r := post_join_leave ok ms.eventlog ms.mon.lost ms.mon.torpid newt "torpid" "lively" false
      if r.2.2 then
        { ms with
          eventlog := r.1,
          mon := { ms.mon with torpid := newt, lost := r.2.1 } }
      else { ms with eventlog := r.1 }

/-- `waitup_cb` (monitor.c lines 376-408): unpack, reject on a follower
rank with EPROTO and a fixed message, validate `0 ≤ up ≤ size`, respond
immediately when `count(up) = up`, otherwise defer the request. -/
def waitup_cb (ms : MSys) (msg : WaitupMsg) : MSys :=
  match msg.payload with
  | none => respond_err ms msg.msgId EPROTO none
  | some up =>
      if ms.mon.rank ≠ 0 then
        respond_err ms msg.msgId EPROTO (some "this RPC only works on rank 0")
      else if up > (ms.mon.size : Int) ∨ up < 0 then
        respond_err ms msg.msgId EPROTO (some "up value is out of range")
      else
        match ms.mon.up with
        | none => ms
        | some U =>
            if (U.card : Int) ≠ up then
              { ms with mon := { ms.mon with waitup_requests := ms.mon.waitup_requests ++ [msg] } }
            else respond_ok ms msg.msgId

/-- `force_down_cb` (monitor.c lines 415-456): unpack the `ranks` string,
copy `monitor->up`, subtract the parsed ranks, post online/offline events
for the diff, commit the new `up`, notify waitup, and respond.  Note the
function has no rank-0 check: on a follower the copy of the unallocated
`up` set fails and the handler responds with that error (EINVAL) and a
NULL `errstr`.  A posting failure responds with the fixed message below;
its errno comes from the failed append and is modelled as ENOMEM. -/
def force_down_cb (ok : String → String → Bool) (ms : MSys)
    (msg : ForceDownMsg) : MSys :=
  match msg.payload with
  | none => respond_err ms msg.msgId EPROTO none
  | some ranks =>
      match idset_copy ms.mon.up with
      | none => respond_err ms msg.msgId EINVAL none
      | some up0 =>
          match idset_decode_subtract up0 ranks with
          | .error text => respond_err ms msg.msgId EINVAL (some text)
          | .ok up1 =>
              let r := post_join_leave ok ms.eventlog ms.mon.lost up0 up1 "online" "offline" true
              if r.2.2 then
                respond_ok
                  (notify_waitup
                    { ms with
                      eventlog := r.1,
                      mon := { ms.mon with up := some up1, lost := r.2.1 } })
                  msg.msgId
              else
                respond_err { ms with eventlog := r.1 } msg.msgId ENOMEM
                  (some "monitor: error posting online/offline event")

/-! ### Derived observations and invariants for the waitqueue model -/

/-- Number of callback invocations (of either shape) recorded for wait
`wid`. -/
def fireCount (tr : List FireEv) (wid : Nat) : Nat :=
  tr.countP (fun e => e.wid == wid)

/-- Number of message-handler callback invocations recorded for `wid`. -/
def hmsgCount (tr : List FireEv) (wid : Nat) : Nat :=
  tr.countP (fun e => e == FireEv.hmsg wid)

/-- Wait `wid` is known to the system and its message-handler callback is
absent or has been cleared (`w->hand.cb == NULL`). -/
def clearedB (s : Sys) (wid : Nat) : Bool :=
  decide (wid < s.nextW) &&
    (match s.waits wid with
     | none => true
     | some w => !w.hand.cb)

/-- Wait `wid` is live and carries a message (`w->hand.msg != NULL`) —
the condition the source counts in `msgs_on_queue` (see the comment at
waitqueue.c lines 45-47). -/
def msgBearing (s : Sys) (wid : Nat) : Bool :=
  match s.waits wid with
  | some w => w.hand.msg
  | none => false

/-- Occurrences of wait `wid` on queue `qid`. -/
def occInQueue (s : Sys) (qid wid : Nat) : Nat :=
  match s.queues qid with
  | some q => q.elems.count wid
  | none => 0

/-- Total number of queue slots referencing wait `wid`. -/
def occTotal (s : Sys) (wid : Nat) : Nat :=
  ∑ qid ∈ Finset.range s.nextQ, occInQueue s qid wid

/-- Structural well-formedness of a waitqueue system state: ids beyond
the fresh counters are unused, queued ids are live, every use-count
equals the number of queue slots holding the wait, and every queue's
`msgs_on_queue` counts its message-bearing entries. -/
structure WF (s : Sys) : Prop where
  wdom : ∀ k, s.nextW ≤ k → s.waits k = none
  qdom : ∀ k, s.nextQ ≤ k → s.queues k = none
  elem_alive : ∀ qid q, s.queues qid = some q → ∀ wid ∈ q.elems, (s.waits wid).isSome = true
  use_eq : ∀ wid w, s.waits wid = some w → w.usecount = (occTotal s wid : Int)
  counter_eq : ∀ qid q, s.queues qid = some q →
    q.msgs_on_queue = ((q.elems.countP (fun wid => msgBearing s wid)) : Int)

/-- Firing invariant: every wait fires at most once, fired waits are
destroyed, and all wait ids ever seen are below the fresh counter. -/
structure FireInv (s : Sys) : Prop where
  once : ∀ wid, fireCount s.trace wid ≤ 1
  fired_dead : ∀ e ∈ s.trace, s.waits e.wid = none
  alive_bound : ∀ wid w, s.waits wid = some w → wid < s.nextW
  fired_bound : ∀ e ∈ s.trace, e.wid < s.nextW

/-- Loop invariant for the `wait_runqueue` pop loop on queue `qid` with
pending copy `P`: the queue has been purged, each pending reference is
still counted in the use-counts, and `msgs_on_queue` still counts the
pending message-bearing entries. -/
structure RunInv (qid : Nat) (P : List Nat) (s : Sys) : Prop where
  wdom : ∀ k, s.nextW ≤ k → s.waits k = none
  qdom : ∀ k, s.nextQ ≤ k → s.queues k = none
  elem_alive : ∀ qid' q, s.queues qid' = some q → ∀ wid ∈ q.elems, (s.waits wid).isSome = true
  p_alive : ∀ wid ∈ P, (s.waits wid).isSome = true
  use_eq : ∀ wid w, s.waits wid = some w →
    w.usecount = (occTotal s wid : Int) + (P.count wid : Int)
  counter_q : ∀ q, s.queues qid = some q →
    q.msgs_on_queue = ((q.elems.countP (fun wid => msgBearing s wid)) : Int)
      + ((P.countP (fun wid => msgBearing s wid)) : Int)
  counter_o : ∀ qid' q, qid' ≠ qid → s.queues qid' = some q →
    q.msgs_on_queue = ((q.elems.countP (fun wid => msgBearing s wid)) : Int)
  qsome : (s.queues qid).isSome = true

/-- Loop invariant for the second `wait_destroy_msg` pass on queue `qid`
with remaining collected entries `M`: the state is well-formed, every
remaining entry still has a matching occurrence on the queue, and every
remaining entry is message-bearing. -/
structure DelInv (qid : Nat) (M : List Nat) (s : Sys) : Prop where
  wf : WF s
  m_count : ∀ wid, M.count wid ≤ occInQueue s qid wid
  m_msg : ∀ wid ∈ M, msgBearing s wid = true

/-! ## Lemmas and theorems -/

/-! ### Basic state-update lemmas -/

@[simp] lemma setWait_waits (s : Sys) (wid : Nat) (v : Option WaitObj) (k : Nat) :
    (setWait s wid v).waits k = if k = wid then v else s.waits k := rfl

@[simp] lemma setWait_queues (s : Sys) (wid : Nat) (v : Option WaitObj) :
    (setWait s wid v).queues = s.queues := rfl

@[simp] lemma setWait_nextW (s : Sys) (wid : Nat) (v : Option WaitObj) :
    (setWait s wid v).nextW = s.nextW := rfl

@[simp] lemma setWait_nextQ (s : Sys) (wid : Nat) (v : Option WaitObj) :
    (setWait s wid v).nextQ = s.nextQ := rfl

@[simp] lemma setWait_trace (s : Sys) (wid : Nat) (v : Option WaitObj) :
    (setWait s wid v).trace = s.trace := rfl

@[simp] lemma setQueue_queues (s : Sys) (qid : Nat) (v : Option WQ) (k : Nat) :
    (setQueue s qid v).queues k = if k = qid then v else s.queues k := rfl

@[simp] lemma setQueue_waits (s : Sys) (qid : Nat) (v : Option WQ) :
    (setQueue s qid v).waits = s.waits := rfl

@[simp] lemma setQueue_nextW (s : Sys) (qid : Nat) (v : Option WQ) :
    (setQueue s qid v).nextW = s.nextW := rfl

@[simp] lemma setQueue_nextQ (s : Sys) (qid : Nat) (v : Option WQ) :
    (setQueue s qid v).nextQ = s.nextQ := rfl

@[simp] lemma setQueue_trace (s : Sys) (qid : Nat) (v : Option WQ) :
    (setQueue s qid v).trace = s.trace := rfl

@[simp] lemma applyAdds_nil (s : Sys) : applyAdds s [] = s := rfl

/-! ### Monitor: preservation lemmas -/

lemma notify_waitup_mon_up (ms : MSys) : (notify_waitup ms).mon.up = ms.mon.up := by
  unfold notify_waitup
  cases h : ms.mon.up <;> simp [h]

lemma notify_waitup_mon_rank (ms : MSys) : (notify_waitup ms).mon.rank = ms.mon.rank := by
  unfold notify_waitup
  cases h : ms.mon.up <;> simp [h]

lemma notify_waitup_mon_lost (ms : MSys) : (notify_waitup ms).mon.lost = ms.mon.lost := by
  unfold notify_waitup
  cases h : ms.mon.up <;> simp [h]

lemma notify_waitup_mon_torpid (ms : MSys) : (notify_waitup ms).mon.torpid = ms.mon.torpid := by
  unfold notify_waitup
  cases h : ms.mon.up <;> simp [h]

lemma notify_waitup_eventlog (ms : MSys) : (notify_waitup ms).eventlog = ms.eventlog := by
  unfold notify_waitup
  cases h : ms.mon.up <;> simp [h]

/-- `post_event` in closed form. -/
lemma post_event_eq (ok : String → String → Bool) (log : List MEvent)
    (name : String) (ids : Finset Nat) :
    post_event ok log name ids =
      if ids = ∅ then some log
      else if ok name (idset_encode ids) then some (log ++ [⟨name, idset_encode ids⟩])
      else none := by
  unfold post_event
  by_cases h : ids = ∅ <;> simp [h, Finset.card_eq_zero]

/-! ### C1: leader-only RPCs on a follower rank -/

/-- C1 counterexample: on follower rank 1 with a well-formed
`monitor-force-down` request, the handler does not fail with EPROTO and
the message "this RPC only works on rank 0"; it fails because copying
the unallocated `up` set fails, producing EINVAL and no error string
(`force_down_cb` has no rank-0 check). -/
theorem force_down_follower_counterexample :
    (force_down_cb (fun _ _ => true) ⟨⟨1, 4, none, ∅, ∅, []⟩, [], []⟩
        ⟨0, some "0"⟩).responses =
      [⟨0, RespBody.err EINVAL none⟩] ∧
    RespBody.err EINVAL none ≠
      RespBody.err EPROTO (some "this RPC only works on rank 0") := by
  constructor
  · rfl
  · decide

/-- C1 (amended): on a follower rank (`up` unallocated), a well-formed
`monitor-waitup` request is answered with EPROTO and "this RPC only works
on rank 0"; a malformed one is answered with the unpack error (EPROTO, no
message).  A `monitor-force-down` request fails immediately — with the
unpack error if malformed, otherwise with the `idset_copy` failure
(EINVAL, no message) — never with the rank-0 message.  No handler mutates
monitor state or the event log. -/
theorem follower_rpc_behavior (ms : MSys) (okf : String → String → Bool)
    (hrank : ms.mon.rank ≠ 0) (hup : ms.mon.up = none) :
    (∀ mid (u : Int), waitup_cb ms ⟨mid, some u⟩ =
        respond_err ms mid EPROTO (some "this RPC only works on rank 0")) ∧
    (∀ mid, waitup_cb ms ⟨mid, none⟩ = respond_err ms mid EPROTO none) ∧
    (∀ mid ranks, force_down_cb okf ms ⟨mid, some ranks⟩ =
        respond_err ms mid EINVAL none) ∧
    (∀ mid, force_down_cb okf ms ⟨mid, none⟩ = respond_err ms mid EPROTO none) ∧
    (∀ mid e t, (respond_err ms mid e t).mon = ms.mon ∧
        (respond_err ms mid e t).eventlog = ms.eventlog) := by
  refine ⟨?_, ?_, ?_, ?_, ?_⟩
  · intro mid u
    simp [waitup_cb, hrank]
  · intro mid
    simp [waitup_cb]
  · intro mid ranks
    simp [force_down_cb, idset_copy, hup]
  · intro mid
    simp [force_down_cb]
  · intro mid e t
    exact ⟨rfl, rfl⟩

/-- C1 witness: the amended theorem applied to a concrete follower
state. -/
theorem follower_rpc_behavior_witness :
    waitup_cb ⟨⟨1, 4, none, ∅, ∅, []⟩, [], []⟩ ⟨5, some 2⟩ =
      respond_err ⟨⟨1, 4, none, ∅, ∅, []⟩, [], []⟩ 5 EPROTO
        (some "this RPC only works on rank 0") :=
  (follower_rpc_behavior ⟨⟨1, 4, none, ∅, ∅, []⟩, [], []⟩ (fun _ _ => true)
    (by decide) rfl).1 5 2

/-! ### Characterizations of `post_join_leave` -/

/-- The `lost` component returned by `post_join_leave` when the diffed
old set is not the `up` set. -/
lemma post_join_leave_lost_not_up (ok : String → String → Bool) (log : List MEvent)
    (lost oldset newset : Finset Nat) (jn ln : String) :
    (post_join_leave ok log lost oldset newset jn ln false).2.1 = lost := by
  unfold post_join_leave
  cases hj : post_event ok log jn (newset \ oldset) with
  | none => simp [hj]
  | some l1 =>
      cases hl : post_event ok l1 ln (oldset \ newset) with
      | none => simp [hj, hl]
      | some l2 => simp [hj, hl]

/-- The `lost` component is unchanged when `post_join_leave` fails. -/
lemma post_join_leave_lost_fail (ok : String → String → Bool) (log : List MEvent)
    (lost oldset newset : Finset Nat) (jn ln : String) (b : Bool)
    (h : (post_join_leave ok log lost oldset newset jn ln b).2.2 = false) :
    (post_join_leave ok log lost oldset newset jn ln b).2.1 = lost := by
  unfold post_join_leave at h ⊢
  cases hj : post_event ok log jn (newset \ oldset) with
  | none => simp [hj]
  | some l1 =>
      cases hl : post_event ok l1 ln (oldset \ newset) with
      | none => simp [hj, hl]
      | some l2 =>
          simp [hj, hl] at h
          cases b <;> simp_all

/-- The `lost` component when `post_join_leave` succeeds on the `up`
set: `(lost ∪ leave) \ join`. -/
lemma post_join_leave_lost_up (ok : String → String → Bool) (log : List MEvent)
    (lost oldset newset : Finset Nat) (jn ln : String)
    (h : (post_join_leave ok log lost oldset newset jn ln true).2.2 = true) :
    (post_join_leave ok log lost oldset newset jn ln true).2.1 =
      (lost ∪ (oldset \ newset)) \ (newset \ oldset) := by
  unfold post_join_leave at h ⊢
  cases hj : post_event ok log jn (newset \ oldset) with
  | none => simp [hj] at h
  | some l1 =>
      cases hl : post_event ok l1 ln (oldset \ newset) with
      | none => simp [hj, hl] at h
      | some l2 => simp [hj, hl]

/-! ### C3: snapshot handlers commit the cached set only after posting -/

/-- C3: a snapshot whose parse fails leaves the state unchanged; when
event posting fails, the cached set (`up` for the online group, `torpid`
for the torpid group) — indeed the whole monitor record — is unchanged,
so the next snapshot is diffed against the same base; only when posting
succeeds is the cached set replaced by the parsed snapshot. -/
theorem snapshot_commit_only_after_post (ok : String → String → Bool) (ms : MSys)
    (U newset : Finset Nat) (hU : ms.mon.up = some U) :
    broker_online_cb ok ms none = ms ∧
    broker_torpid_cb ok ms none = ms ∧
    ((post_join_leave ok ms.eventlog ms.mon.lost U newset "online" "offline" true).2.2 = false →
      (broker_online_cb ok ms (some newset)).mon = ms.mon) ∧
    ((post_join_leave ok ms.eventlog ms.mon.lost U newset "online" "offline" true).2.2 = true →
      (broker_online_cb ok ms (some newset)).mon.up = some newset) ∧
    ((post_join_leave ok ms.eventlog ms.mon.lost ms.mon.torpid newset "torpid" "lively" false).2.2 = false →
      (broker_torpid_cb ok ms (some newset)).mon = ms.mon) ∧
    ((post_join_leave ok ms.eventlog ms.mon.lost ms.mon.torpid newset "torpid" "lively" false).2.2 = true →
      (broker_torpid_cb ok ms (some newset)).mon.torpid = newset) := by
  refine ⟨rfl, rfl, ?_, ?_, ?_, ?_⟩
  · intro hf
    simp [broker_online_cb, hU, hf]
  · intro ht
    simp [broker_online_cb, hU, ht, notify_waitup_mon_up]
  · intro hf
    simp [broker_torpid_cb, hf]
  · intro ht
    simp [broker_torpid_cb, ht]

/-- C3 witness: with an always-succeeding event log, a leader with
`up = {0,1}` processing snapshot `{0,1,2}` commits `up = {0,1,2}`. -/
theorem snapshot_commit_only_after_post_witness :
    (broker_online_cb (fun _ _ => true)
        ⟨⟨0, 4, some {0, 1}, ∅, ∅, []⟩, [], []⟩ (some {0, 1, 2})).mon.up =
      some {0, 1, 2} :=
  (snapshot_commit_only_after_post (fun _ _ => true)
    ⟨⟨0, 4, some {0, 1}, ∅, ∅, []⟩, [], []⟩ {0, 1} {0, 1, 2} rfl).2.2.2.1 (by decide)

/-! ### C6: join is posted before leave, empty idsets are omitted -/

/-- C6: when `post_join_leave` succeeds (the path taken by both snapshot
handlers and by `force_down_cb`), the log is extended by the join event
followed by the leave event, each carrying the range-encoded idset as its
context and each omitted when its idset is empty. -/
theorem post_join_leave_order (ok : String → String → Bool) (log : List MEvent)
    (lost oldset newset : Finset Nat) (jn ln : String) (b : Bool)
    (h : (post_join_leave ok log lost oldset newset jn ln b).2.2 = true) :
    (post_join_leave ok log lost oldset newset jn ln b).1 =
      log ++ (if newset \ oldset = ∅ then []
              else [⟨jn, idset_encode (newset \ oldset)⟩])
          ++ (if oldset \ newset = ∅ then []
              else [⟨ln, idset_encode (oldset \ newset)⟩]) := by
  cases b <;>
    by_cases h1 : newset \ oldset = ∅ <;>
    by_cases h2 : oldset \ newset = ∅ <;>
    by_cases h3 : ok jn (idset_encode (newset \ oldset)) <;>
    by_cases h4 : ok ln (idset_encode (oldset \ newset)) <;>
    simp_all [post_join_leave, post_event_eq]

/-- C6 witness: from `up = {0,1,3}` to `{0,1,2}`, the online event with
idset "2" is posted before the offline event with idset "3". -/
theorem post_join_leave_order_witness :
    (post_join_leave (fun _ _ => true) [] ∅ {0, 1, 3} {0, 1, 2}
        "online" "offline" true).1 =
      [⟨"online", "2"⟩, ⟨"offline", "3"⟩] := by
  have h := post_join_leave_order (fun _ _ => true) [] ∅ {0, 1, 3} {0, 1, 2}
    "online" "offline" true (by decide)
  have e1 : ({0, 1, 2} : Finset Nat) \ {0, 1, 3} = {2} := by decide
  have e2 : ({0, 1, 3} : Finset Nat) \ {0, 1, 2} = {3} := by decide
  rw [h, e1, e2]
  have s1 : idset_encode ({2} : Finset Nat) = "2" := by
    unfold idset_encode
    rw [Finset.sort_singleton]
    rfl
  have s2 : idset_encode ({3} : Finset Nat) = "3" := by
    unfold idset_encode
    rw [Finset.sort_singleton]
    rfl
  rw [if_neg (by decide : ¬({2} : Finset Nat) = ∅),
      if_neg (by decide : ¬({3} : Finset Nat) = ∅), s1, s2]
  rfl

/-! ### C7: the `lost` set is adjusted only by diffs of the `up` set -/

/-- C7: `post_join_leave` mutates `lost` only when the diffed old set is
the `up` set, in which case a successful call sets
`lost = (lost ∪ leave) \ join`; a failed call and any torpid-group diff
leave `lost` unchanged.  Consequently a rank enters `lost` only when it
was in the old `up` set and absent from the new one (an online→offline
transition), and leaves `lost` only when it appears in the new `up`
set. -/
theorem lost_update_rule (ok : String → String → Bool) (log : List MEvent)
    (lost oldset newset : Finset Nat) (jn ln : String) :
    ((post_join_leave ok log lost oldset newset jn ln true).2.2 = true →
      (post_join_leave ok log lost oldset newset jn ln true).2.1 =
        (lost ∪ (oldset \ newset)) \ (newset \ oldset)) ∧
    ((post_join_leave ok log lost oldset newset jn ln true).2.2 = false →
      (post_join_leave ok log lost oldset newset jn ln true).2.1 = lost) ∧
    ((post_join_leave ok log lost oldset newset jn ln false).2.1 = lost) ∧
    (∀ x, x ∈ (post_join_leave ok log lost oldset newset jn ln true).2.1 →
      x ∉ lost → x ∈ oldset ∧ x ∉ newset) ∧
    (∀ x, x ∈ lost → x ∉ (post_join_leave ok log lost oldset newset jn ln true).2.1 →
      x ∈ newset) ∧
    (∀ ms snap, (broker_torpid_cb ok ms snap).mon.lost = ms.mon.lost) := by
  refine ⟨post_join_leave_lost_up ok log lost oldset newset jn ln,
          post_join_leave_lost_fail ok log lost oldset newset jn ln true,
          post_join_leave_lost_not_up ok log lost oldset newset jn ln, ?_, ?_, ?_⟩
  · intro x hx hnl
    by_cases hflag : (post_join_leave ok log lost oldset newset jn ln true).2.2 = true
    · rw [post_join_leave_lost_up ok log lost oldset newset jn ln hflag] at hx
      rw [Finset.mem_sdiff, Finset.mem_union] at hx
      rcases hx with ⟨hx1 | hx2, hxj⟩
      · exact absurd hx1 hnl
      · exact Finset.mem_sdiff.mp hx2
    · rw [post_join_leave_lost_fail ok log lost oldset newset jn ln true
        (Bool.eq_false_iff.mpr hflag)] at hx
      exact absurd hx hnl
  · intro x hxl hxr
    by_cases hflag : (post_join_leave ok log lost oldset newset jn ln true).2.2 = true
    · rw [post_join_leave_lost_up ok log lost oldset newset jn ln hflag] at hxr
      by_contra hxn
      apply hxr
      rw [Finset.mem_sdiff, Finset.mem_union]
      refine ⟨Or.inl hxl, ?_⟩
      rw [Finset.mem_sdiff]
      intro hcon
      exact hxn hcon.1
    · rw [post_join_leave_lost_fail ok log lost oldset newset jn ln true
        (Bool.eq_false_iff.mpr hflag)] at hxr
      exact absurd hxl hxr
  · intro ms snap
    cases snap with
    | none => rfl
    | some t =>
        by_cases hflag :
          (post_join_leave ok ms.eventlog ms.mon.lost ms.mon.torpid t "torpid" "lively" false).2.2 = true
        · simp [broker_torpid_cb, hflag,
            post_join_leave_lost_not_up ok ms.eventlog ms.mon.lost ms.mon.torpid t "torpid" "lively"]
        · simp [broker_torpid_cb, hflag]

/-- C7 witness: with `up` going from `{0,1,2,3}` to `{0,1,2}` and empty
prior `lost`, the new `lost` set is `{3}`. -/
theorem lost_update_rule_witness :
    (post_join_leave (fun _ _ => true) [] ∅ {0, 1, 2, 3} {0, 1, 2}
        "online" "offline" true).2.1 = {3} := by
  have h := (lost_update_rule (fun _ _ => true) [] ∅ {0, 1, 2, 3} {0, 1, 2}
    "online" "offline").1 (by decide)
  rw [h]
  decide

/-! ### C5: waitup request semantics on the leader -/

/-- Closed form of the `notify_waitup` fold over well-formed deferred
requests: requests wanting the current count are answered ok in list
order and removed; the rest are kept in order. -/
lemma notify_fold (c : Int) (L : List WaitupMsg) (kept : List WaitupMsg)
    (rs : List MResp) (hwf : ∀ m ∈ L, m.payload.isSome = true) :
    L.foldl (notify_step c) (kept, rs) =
      (kept ++ L.filter (fun m => m.payload ≠ some c),
       rs ++ (L.filter (fun m => m.payload = some c)).map
         (fun m => ⟨m.msgId, RespBody.ok⟩)) := by
  induction L generalizing kept rs with
  | nil => simp
  | cons m rest ih =>
      obtain ⟨v, hv⟩ := Option.isSome_iff_exists.mp (hwf m (by simp))
      have hrest : ∀ x ∈ rest, x.payload.isSome = true := fun x hx => hwf x (by simp [hx])
      rw [List.foldl_cons]
      by_cases hc : v = c
      · subst hc
        rw [show notify_step v (kept, rs) m = (kept, rs ++ [⟨m.msgId, RespBody.ok⟩]) from by
              simp [notify_step, hv]]
        rw [ih _ _ hrest]
        rw [List.filter_cons, List.filter_cons]
        simp [hv]
      · rw [show notify_step c (kept, rs) m = (kept ++ [m], rs) from by
              simp [notify_step, hv, hc]]
        rw [ih _ _ hrest]
        rw [List.filter_cons, List.filter_cons]
        simp [hv, hc]

/-- C5: on the leader (rank 0) a well-formed `monitor-waitup` request with
`up ∈ [0, size]` is answered ok immediately when `count(up_set) = up` and
appended to the deferred list otherwise; an out-of-range `up` is answered
immediately with EPROTO; and whenever the `up` set changes
(`notify_waitup`, called by the snapshot handler after committing), the
deferred requests whose desired count equals the new count are answered
ok, in order, and removed from the list, while all others are kept. -/
theorem waitup_semantics (ok : String → String → Bool) (ms : MSys)
    (U newset : Finset Nat) (h0 : ms.mon.rank = 0) (hU : ms.mon.up = some U) :
    (∀ mid (u : Int), 0 ≤ u → u ≤ (ms.mon.size : Int) → (U.card : Int) = u →
      waitup_cb ms ⟨mid, some u⟩ = respond_ok ms mid) ∧
    (∀ mid (u : Int), 0 ≤ u → u ≤ (ms.mon.size : Int) → (U.card : Int) ≠ u →
      waitup_cb ms ⟨mid, some u⟩ =
        { ms with mon := { ms.mon with
            waitup_requests := ms.mon.waitup_requests ++ [⟨mid, some u⟩] } }) ∧
    (∀ mid (u : Int), ((ms.mon.size : Int) < u ∨ u < 0) →
      waitup_cb ms ⟨mid, some u⟩ =
        respond_err ms mid EPROTO (some "up value is out of range")) ∧
    ((∀ m ∈ ms.mon.waitup_requests, m.payload.isSome = true) →
      (notify_waitup ms).mon.waitup_requests =
        ms.mon.waitup_requests.filter (fun m => m.payload ≠ some (U.card : Int)) ∧
      (notify_waitup ms).responses =
        ms.responses ++ (ms.mon.waitup_requests.filter
          (fun m => m.payload = some (U.card : Int))).map
            (fun m => ⟨m.msgId, RespBody.ok⟩)) ∧
    ((post_join_leave ok ms.eventlog ms.mon.lost U newset "online" "offline" true).2.2 = true →
      (∀ m ∈ ms.mon.waitup_requests, m.payload.isSome = true) →
      (broker_online_cb ok ms (some newset)).mon.waitup_requests =
        ms.mon.waitup_requests.filter (fun m => m.payload ≠ some (newset.card : Int))) := by
  refine ⟨?_, ?_, ?_, ?_, ?_⟩
  · intro mid u h1 h2 heq
    unfold waitup_cb
    simp only [hU]
    split_ifs with hr hrange hcount
    · exact absurd h0 hr
    · rcases hrange with h | h <;> omega
    · exact absurd heq hcount
    · rfl
  · intro mid u h1 h2 hne
    unfold waitup_cb
    simp only [hU]
    split_ifs with hr hrange
    · exact absurd h0 hr
    · rcases hrange with h | h <;> omega
    · rfl
  · intro mid u hrange
    unfold waitup_cb
    simp only [hU]
    split_ifs with hr
    · exact absurd h0 hr
    · rfl
  · intro hwf
    unfold notify_waitup
    simp only [hU]
    rw [notify_fold (U.card : Int) ms.mon.waitup_requests [] [] hwf]
    constructor <;> simp
  · intro hpost hwf
    simp only [broker_online_cb, hU, hpost, if_true]
    unfold notify_waitup
    simp only []
    rw [notify_fold (newset.card : Int) ms.mon.waitup_requests [] [] hwf]
    simp

/-- C5 witness: leader with `up = {0,1}` answers a waitup request for 2
immediately with success. -/
theorem waitup_semantics_witness :
    waitup_cb ⟨⟨0, 4, some {0, 1}, ∅, ∅, []⟩, [], []⟩ ⟨9, some 2⟩ =
      respond_ok ⟨⟨0, 4, some {0, 1}, ∅, ∅, []⟩, [], []⟩ 9 :=
  (waitup_semantics (fun _ _ => true) ⟨⟨0, 4, some {0, 1}, ∅, ∅, []⟩, [], []⟩
    {0, 1} ∅ rfl rfl).1 9 2 (by decide) (by decide) (by decide)

/-! ### Waitqueue: trace and queue-shape lemmas -/

lemma wait_addqueue_trace (s : Sys) (qid wid : Nat) :
    (wait_addqueue s qid wid).trace = s.trace := by
  unfold wait_addqueue
  cases h1 : s.queues qid <;> cases h2 : s.waits wid <;> simp

lemma applyAdds_trace (adds : List (Nat × Nat)) (s : Sys) :
    (applyAdds s adds).trace = s.trace := by
  induction adds generalizing s with
  | nil => rfl
  | cons p rest ih =>
      cases p with
      | mk a b => rw [show applyAdds s ((a, b) :: rest) = applyAdds (wait_addqueue s a b) rest
          from rfl, ih, wait_addqueue_trace]

lemma runDecMsg_waits (s : Sys) (qid wid : Nat) :
    (runDecMsg s qid wid).waits = s.waits := by
  unfold runDecMsg
  cases h1 : s.waits wid <;> cases h2 : s.queues qid <;> simp
  split <;> rfl

lemma runDecMsg_trace (s : Sys) (qid wid : Nat) :
    (runDecMsg s qid wid).trace = s.trace := by
  unfold runDecMsg
  cases h1 : s.waits wid <;> cases h2 : s.queues qid <;> simp
  split <;> rfl

lemma trace_if_applyAdds (c : Bool) (s1 : Sys) (adds : List (Nat × Nat)) :
    (if c = true then s1 else applyAdds s1 adds).trace = s1.trace := by
  cases c
  · simp [applyAdds_trace]
  · simp

lemma queues_if_applyAddsNil (c : Bool) (s1 : Sys) :
    (if c = true then s1 else applyAdds s1 []).queues = s1.queues := by
  cases c <;> rfl

/-- One `wait_runone` call extends the trace only with events of the
processed wait. -/
lemma wait_runone_trace (eff : Nat → List (Nat × Nat)) (s : Sys) (wid : Nat) :
    ∃ t, (wait_runone eff s wid).trace = s.trace ++ t ∧ ∀ e ∈ t, e.wid = wid := by
  unfold wait_runone
  cases h : s.waits wid with
  | none => exact ⟨[], by simp⟩
  | some w =>
      simp only []
      by_cases hu : w.usecount - 1 = 0
      · rw [if_pos hu]
        refine ⟨if w.cb then [.plain wid] else if w.hand.cb then [.hmsg wid] else [], ?_, ?_⟩
        · simp only [setWait_trace]
          exact trace_if_applyAdds _ _ _
        · intro e he
          by_cases h1 : w.cb <;> by_cases h2 : w.hand.cb <;> simp [h1, h2] at he <;>
            simp [he, FireEv.wid]
      · rw [if_neg hu]
        exact ⟨[], by simp⟩

/-- The `wait_runqueue` pop loop fires callbacks only for waits in the
popped copy. -/
lemma runLoop_trace (eff : Nat → List (Nat × Nat)) (qid : Nat) (P : List Nat) (s : Sys) :
    ∃ t, (runLoop eff qid s P).trace = s.trace ++ t ∧ ∀ e ∈ t, e.wid ∈ P := by
  induction P generalizing s with
  | nil => exact ⟨[], by simp [runLoop]⟩
  | cons a rest ih =>
      obtain ⟨t1, ht1, ha⟩ := wait_runone_trace eff (runDecMsg s qid a) a
      obtain ⟨t2, ht2, hb⟩ := ih (wait_runone eff (runDecMsg s qid a) a)
      refine ⟨t1 ++ t2, ?_, ?_⟩
      · rw [show runLoop eff qid s (a :: rest) =
            runLoop eff qid (wait_runone eff (runDecMsg s qid a) a) rest from rfl,
          ht2, ht1, runDecMsg_trace, List.append_assoc]
      · intro e he
        rcases List.mem_append.mp he with h | h
        · exact (ha e h) ▸ List.mem_cons_self a rest
        · exact List.mem_cons_of_mem a (hb e h)

lemma wait_runone_queues_efffree (s : Sys) (wid : Nat) :
    (wait_runone (fun _ => []) s wid).queues = s.queues := by
  unfold wait_runone
  cases h : s.waits wid with
  | none => rfl
  | some w =>
      simp only []
      by_cases hu : w.usecount - 1 = 0
      · rw [if_pos hu]
        simp only [setWait_queues]
        exact queues_if_applyAddsNil _ _
      · rw [if_neg hu]
        rfl

lemma runDecMsg_elems_map (s : Sys) (qid wid k : Nat) :
    ((runDecMsg s qid wid).queues k).map WQ.elems = (s.queues k).map WQ.elems := by
  unfold runDecMsg
  cases h1 : s.waits wid <;> cases h2 : s.queues qid <;> simp
  split
  · simp only [setQueue_queues]
    by_cases hk : k = qid <;> simp [hk, h2]
  · rfl

/-- The effect-free pop loop never changes any queue's element list. -/
lemma runLoop_elems_map (qid : Nat) (P : List Nat) (s : Sys) (k : Nat) :
    ((runLoop (fun _ => []) qid s P).queues k).map WQ.elems = (s.queues k).map WQ.elems := by
  induction P generalizing s with
  | nil => rfl
  | cons a rest ih =>
      rw [show runLoop (fun _ => []) qid s (a :: rest) =
          runLoop (fun _ => []) qid
            (wait_runone (fun _ => []) (runDecMsg s qid a) a) rest from rfl,
        ih, wait_runone_queues_efffree, runDecMsg_elems_map]

/-! ### C4: `wait_runqueue` is all-or-nothing -/

/-- C4: if duplicating the queue fails, `wait_runqueue` returns `-1` with
`errno = ENOMEM` and the state is exactly as before; if the queue is
empty it returns success doing nothing; otherwise it succeeds, every
entry is moved off the queue (the queue ends empty) and every callback
fired belongs to an entry of the original queue. -/
theorem wait_runqueue_atomicity (s : Sys) (qid : Nat) (q : WQ)
    (hq : s.queues qid = some q) :
    (q.elems ≠ [] → wait_runqueue_c false qid s = (s, -1, ENOMEM)) ∧
    (q.elems = [] → ∀ d, wait_runqueue_c d qid s = (s, 0, 0)) ∧
    ((wait_runqueue_c true qid s).2.1 = 0 ∧
      (wait_runqueue_c true qid s).1 = wait_runqueue qid s) ∧
    (∃ q2, (wait_runqueue qid s).queues qid = some q2 ∧ q2.elems = []) ∧
    (∃ t, (wait_runqueue qid s).trace = s.trace ++ t ∧ ∀ e ∈ t, e.wid ∈ q.elems) := by
  refine ⟨?_, ?_, ?_, ?_, ?_⟩
  · intro hne
    unfold wait_runqueue_c
    rw [hq]
    simp only [List.isEmpty_iff]
    rw [if_neg hne]
    rfl
  · intro he d
    unfold wait_runqueue_c
    rw [hq]
    simp [he]
  · constructor
    · unfold wait_runqueue_c
      rw [hq]
      by_cases he : q.elems.isEmpty <;> simp [he]
    · unfold wait_runqueue_c wait_runqueue wait_runqueue_eff
      rw [hq]
      by_cases he : q.elems.isEmpty <;> simp [he, hq]
  · unfold wait_runqueue wait_runqueue_eff
    rw [hq]
    try simp only []
    by_cases he : q.elems.isEmpty
    · rw [if_pos he]
      exact ⟨q, hq, List.isEmpty_iff.mp he⟩
    · rw [if_neg he]
      have hm := runLoop_elems_map qid q.elems (purgeQueue s qid) qid
      have hp : (purgeQueue s qid).queues qid = some { q with elems := [] } := by
        unfold purgeQueue
        rw [hq]
        simp
      rw [hp] at hm
      have hm2 : ((runLoop (fun _ => []) qid (purgeQueue s qid) q.elems).queues qid).map
          WQ.elems = some [] := hm
      obtain ⟨q2, hq2a, hq2b⟩ := Option.map_eq_some'.mp hm2
      exact ⟨q2, hq2a, hq2b⟩
  · unfold wait_runqueue wait_runqueue_eff
    rw [hq]
    try simp only []
    by_cases he : q.elems.isEmpty
    · rw [if_pos he]
      exact ⟨[], by simp⟩
    · rw [if_neg he]
      obtain ⟨t, ht, hmem⟩ := runLoop_trace (fun _ => []) qid q.elems (purgeQueue s qid)
      have hpt : (purgeQueue s qid).trace = s.trace := by
        unfold purgeQueue
        rw [hq]
        rfl
      exact ⟨t, by rw [ht, hpt], hmem⟩

/-- C4 witness: applying the theorem to a one-element queue whose
duplication fails. -/
theorem wait_runqueue_atomicity_witness :
    wait_runqueue_c false 0
        ⟨fun k => if k = 0 then some ⟨1, true, ⟨false, false⟩⟩ else none,
         fun k => if k = 0 then some ⟨[0], 0⟩ else none, 1, 1, []⟩ =
      (⟨fun k => if k = 0 then some ⟨1, true, ⟨false, false⟩⟩ else none,
        fun k => if k = 0 then some ⟨[0], 0⟩ else none, 1, 1, []⟩, -1, ENOMEM) :=
  (wait_runqueue_atomicity
    ⟨fun k => if k = 0 then some ⟨1, true, ⟨false, false⟩⟩ else none,
     fun k => if k = 0 then some ⟨[0], 0⟩ else none, 1, 1, []⟩ 0 ⟨[0], 0⟩ rfl).1
    (by decide)

/-! ### C10: `wait_queue_destroy` releases references without firing -/

lemma releaseOne_queues (s : Sys) (a : Nat) : (releaseOne s a).queues = s.queues := by
  unfold releaseOne
  cases h : s.waits a with
  | none => rfl
  | some w => by_cases hu : w.usecount - 1 = 0 <;> simp [hu]

lemma releaseOne_trace (s : Sys) (a : Nat) : (releaseOne s a).trace = s.trace := by
  unfold releaseOne
  cases h : s.waits a with
  | none => rfl
  | some w => by_cases hu : w.usecount - 1 = 0 <;> simp [hu]

lemma releasePass_queues (L : List Nat) (s : Sys) :
    (releasePass s L).queues = s.queues := by
  induction L generalizing s with
  | nil => rfl
  | cons a rest ih =>
      rw [show releasePass s (a :: rest) = releasePass (releaseOne s a) rest from rfl,
        ih, releaseOne_queues]

lemma releasePass_trace (L : List Nat) (s : Sys) :
    (releasePass s L).trace = s.trace := by
  induction L generalizing s with
  | nil => rfl
  | cons a rest ih =>
      rw [show releasePass s (a :: rest) = releasePass (releaseOne s a) rest from rfl,
        ih, releaseOne_trace]

lemma releasePass_waits_none (L : List Nat) (s : Sys) (wid : Nat)
    (h : s.waits wid = none) : (releasePass s L).waits wid = none := by
  induction L generalizing s with
  | nil => exact h
  | cons a rest ih =>
      rw [show releasePass s (a :: rest) = releasePass (releaseOne s a) rest from rfl]
      apply ih
      unfold releaseOne
      cases hsa : s.waits a with
      | none => exact h
      | some wa =>
          by_cases hwa : wid = a
          · subst hwa
            rw [hsa] at h
            cases h
          · by_cases hu : wa.usecount - 1 = 0 <;> simp [hu, hwa, h]

/-- Per-wait effect of the `wait_queue_destroy` pop loop: the use-count
drops by the number of occurrences, and the wait is destroyed exactly
when some intermediate decrement reaches zero. -/
lemma releasePass_waits (L : List Nat) (s : Sys) (wid : Nat) (w : WaitObj)
    (h : s.waits wid = some w) :
    (releasePass s L).waits wid =
      if 1 ≤ w.usecount ∧ w.usecount ≤ (L.count wid : Int) then none
      else some { w with usecount := w.usecount - (L.count wid : Int) } := by
  induction L generalizing s w with
  | nil =>
      rw [if_neg (by simp; omega)]
      rw [show ((List.count wid ([] : List Nat) : Nat) : Int) = 0 from by simp]
      rw [show w.usecount - 0 = w.usecount from by ring]
      exact h
  | cons a rest ih =>
      rw [show releasePass s (a :: rest) = releasePass (releaseOne s a) rest from rfl]
      by_cases hwa : a = wid
      · subst hwa
        by_cases hu : w.usecount - 1 = 0
        · have h1 : (releaseOne s a).waits a = none := by
            unfold releaseOne
            rw [h]
            simp only []
            rw [if_pos hu]
            simp
          rw [releasePass_waits_none rest _ a h1]
          rw [if_pos ⟨by omega, by rw [List.count_cons_self]; push_cast; omega⟩]
        · have h1 : (releaseOne s a).waits a = some { w with usecount := w.usecount - 1 } := by
            unfold releaseOne
            rw [h]
            simp only []
            rw [if_neg hu]
            simp
          rw [ih _ _ h1, List.count_cons_self]
          push_cast
          split_ifs with hA hB hB
          · rfl
          · omega
          · omega
          · refine congrArg some ?_
            have hval : w.usecount - 1 - ((rest.count a : Nat) : Int)
                = w.usecount - (((rest.count a : Nat) : Int) + 1) := by ring
            simp [hval]
      · have hne : wid ≠ a := fun hh => hwa hh.symm
        have h1 : (releaseOne s a).waits wid = some w := by
          unfold releaseOne
          cases hsa : s.waits a with
          | none => exact h
          | some wa =>
              simp only []
              by_cases hu : wa.usecount - 1 = 0 <;> simp [hu, hne, h]
        rw [ih _ _ h1, List.count_cons_of_ne hne]

/-- C10: `wait_queue_destroy` fires no callback (the trace is unchanged),
removes the queue, and for each live wait releases one reference per
occurrence on the queue, destroying the wait exactly when its use-count
is consumed. -/
theorem wait_queue_destroy_releases_without_firing (s : Sys) (qid : Nat) :
    (wait_queue_destroy qid s).trace = s.trace ∧
    (wait_queue_destroy qid s).queues qid = none ∧
    (∀ q, s.queues qid = some q → ∀ wid w, s.waits wid = some w →
      (wait_queue_destroy qid s).waits wid =
        if 1 ≤ w.usecount ∧ w.usecount ≤ (q.elems.count wid : Int) then none
        else some { w with usecount := w.usecount - (q.elems.count wid : Int) }) := by
  refine ⟨?_, ?_, ?_⟩
  · unfold wait_queue_destroy
    cases hq : s.queues qid with
    | none => rfl
    | some q => simp [releasePass_trace]
  · unfold wait_queue_destroy
    cases hq : s.queues qid with
    | none => exact hq
    | some q => simp
  · intro q hq wid w hw
    unfold wait_queue_destroy
    rw [hq]
    simp only [setWait_waits, setQueue_waits]
    exact releasePass_waits q.elems s wid w hw

/-! ### Domain and shape preservation lemmas for the operations -/

lemma wait_addqueue_waits_isSome (s : Sys) (qid wid k : Nat) :
    ((wait_addqueue s qid wid).waits k).isSome = (s.waits k).isSome := by
  unfold wait_addqueue
  cases h1 : s.queues qid <;> cases h2 : s.waits wid <;> try rfl
  simp only [setWait_waits, setQueue_waits]
  by_cases hk : k = wid <;> simp [hk, h2]

lemma wait_addqueue_nextW (s : Sys) (qid wid : Nat) :
    (wait_addqueue s qid wid).nextW = s.nextW := by
  unfold wait_addqueue
  cases h1 : s.queues qid <;> cases h2 : s.waits wid <;> rfl

lemma wait_addqueue_nextQ (s : Sys) (qid wid : Nat) :
    (wait_addqueue s qid wid).nextQ = s.nextQ := by
  unfold wait_addqueue
  cases h1 : s.queues qid <;> cases h2 : s.waits wid <;> rfl

/-- `wait_addqueue` only bumps the use-count of the target wait: the
callback fields of every surviving wait are untouched. -/
lemma wait_addqueue_waits_shape (s : Sys) (qid wid k : Nat) (w' : WaitObj)
    (h : (wait_addqueue s qid wid).waits k = some w') :
    ∃ w, s.waits k = some w ∧ w'.cb = w.cb ∧ w'.hand = w.hand := by
  revert h
  unfold wait_addqueue
  cases h1 : s.queues qid <;> cases h2 : s.waits wid <;>
    try exact fun h => ⟨w', h, rfl, rfl⟩
  simp only [setWait_waits, setQueue_waits]
  by_cases hk : k = wid
  · subst hk
    rw [if_pos rfl]
    intro h
    cases h
    exact ⟨_, h2, rfl, rfl⟩
  · rw [if_neg hk]
    exact fun h => ⟨w', h, rfl, rfl⟩

lemma applyAdds_waits_isSome (adds : List (Nat × Nat)) (s : Sys) (k : Nat) :
    ((applyAdds s adds).waits k).isSome = (s.waits k).isSome := by
  induction adds generalizing s with
  | nil => rfl
  | cons p rest ih =>
      cases p with
      | mk a b =>
          rw [show applyAdds s ((a, b) :: rest) = applyAdds (wait_addqueue s a b) rest
            from rfl, ih, wait_addqueue_waits_isSome]

lemma applyAdds_nextW (adds : List (Nat × Nat)) (s : Sys) :
    (applyAdds s adds).nextW = s.nextW := by
  induction adds generalizing s with
  | nil => rfl
  | cons p rest ih =>
      cases p with
      | mk a b =>
          rw [show applyAdds s ((a, b) :: rest) = applyAdds (wait_addqueue s a b) rest
            from rfl, ih, wait_addqueue_nextW]

lemma applyAdds_waits_shape (adds : List (Nat × Nat)) (s : Sys) (k : Nat) (w' : WaitObj)
    (h : (applyAdds s adds).waits k = some w') :
    ∃ w, s.waits k = some w ∧ w'.cb = w.cb ∧ w'.hand = w.hand := by
  induction adds generalizing s w' with
  | nil => exact ⟨w', h, rfl, rfl⟩
  | cons p rest ih =>
      cases p with
      | mk a b =>
          rw [show applyAdds s ((a, b) :: rest) = applyAdds (wait_addqueue s a b) rest
            from rfl] at h
          obtain ⟨w1, hw1, hc1, hh1⟩ := ih _ _ h
          obtain ⟨w0, hw0, hc0, hh0⟩ := wait_addqueue_waits_shape s a b k w1 hw1
          exact ⟨w0, hw0, hc1.trans hc0, hh1.trans hh0⟩

/-! ### C2: callbacks fire at most once -/

lemma fireCount_append (t1 t2 : List FireEv) (wid : Nat) :
    fireCount (t1 ++ t2) wid = fireCount t1 wid + fireCount t2 wid := by
  unfold fireCount
  exact List.countP_append _ _ _

lemma hmsgCount_append (t1 t2 : List FireEv) (wid : Nat) :
    hmsgCount (t1 ++ t2) wid = hmsgCount t1 wid + hmsgCount t2 wid := by
  unfold hmsgCount
  exact List.countP_append _ _ _

lemma fireCount_eq_zero_iff (tr : List FireEv) (wid : Nat) :
    fireCount tr wid = 0 ↔ ∀ e ∈ tr, e.wid ≠ wid := by
  unfold fireCount
  rw [List.countP_eq_zero]
  simp

lemma hmsgCount_eq_zero (tr : List FireEv) (wid : Nat)
    (h : ∀ e ∈ tr, e.wid ≠ wid) : hmsgCount tr wid = 0 := by
  unfold hmsgCount
  rw [List.countP_eq_zero]
  intro e he
  have := h e he
  cases e with
  | plain x => simp
  | hmsg x =>
      simp only [FireEv.wid] at this
      simp [this]

/-- Generic preservation of the firing invariant under a step that keeps
the trace and fresh counter and only shrinks the heap. -/
lemma fireInv_of_shrink (s s' : Sys) (h : FireInv s)
    (htr : s'.trace = s.trace) (hnw : s'.nextW = s.nextW)
    (hdom : ∀ k, s.waits k = none → s'.waits k = none)
    (hdom2 : ∀ k, (s'.waits k).isSome = true → (s.waits k).isSome = true) :
    FireInv s' := by
  refine ⟨?_, ?_, ?_, ?_⟩
  · intro wid
    rw [htr]
    exact h.once wid
  · intro e he
    rw [htr] at he
    exact hdom _ (h.fired_dead e he)
  · intro wid w hw
    rw [hnw]
    have h2 := hdom2 wid (by rw [hw]; rfl)
    obtain ⟨w0, hw0⟩ := Option.isSome_iff_exists.mp h2
    exact h.alive_bound wid w0 hw0
  · intro e he
    rw [htr] at he
    rw [hnw]
    exact h.fired_bound e he

lemma fireInv_init : FireInv Sys.init :=
  ⟨fun wid => by simp [fireCount, Sys.init],
   fun e he => by simp [Sys.init] at he,
   fun wid w hw => by simp [Sys.init] at hw,
   fun e he => by simp [Sys.init] at he⟩

/-- Creating a wait (either shape) preserves the firing invariant. -/
lemma fireInv_newWait (s : Sys) (h : FireInv s) (w0 : WaitObj) :
    FireInv { setWait s s.nextW (some w0) with nextW := s.nextW + 1 } := by
  refine ⟨?_, ?_, ?_, ?_⟩
  · intro wid
    exact h.once wid
  · intro e he
    have hb := h.fired_bound e he
    have hd := h.fired_dead e he
    show (if e.wid = s.nextW then some w0 else s.waits e.wid) = none
    rw [if_neg (by omega)]
    exact hd
  · intro wid w hw
    show wid < s.nextW + 1
    have hw' : (if wid = s.nextW then some w0 else s.waits wid) = some w := hw
    by_cases hk : wid = s.nextW
    · omega
    · rw [if_neg hk] at hw'
      have := h.alive_bound wid w hw'
      omega
  · intro e he
    show e.wid < s.nextW + 1
    have := h.fired_bound e he
    omega

lemma fireInv_queue_create (s : Sys) (h : FireInv s) : FireInv (wait_queue_create s) :=
  fireInv_of_shrink s _ h rfl rfl (fun _ hk => hk) (fun _ hk => hk)

lemma fireInv_addqueue (s : Sys) (h : FireInv s) (qid wid : Nat) :
    FireInv (wait_addqueue s qid wid) :=
  fireInv_of_shrink s _ h (wait_addqueue_trace s qid wid) (wait_addqueue_nextW s qid wid)
    (fun k hk => by
      have := wait_addqueue_waits_isSome s qid wid k
      rw [hk] at this
      simp only [Option.isSome_none] at this
      exact Option.not_isSome_iff_eq_none.mp (by rw [this]; simp))
    (fun k hk => by rw [← wait_addqueue_waits_isSome s qid wid k]; exact hk)

lemma fireInv_applyAdds (adds : List (Nat × Nat)) (s : Sys) (h : FireInv s) :
    FireInv (applyAdds s adds) := by
  induction adds generalizing s with
  | nil => exact h
  | cons p rest ih =>
      cases p with
      | mk a b =>
          rw [show applyAdds s ((a, b) :: rest) = applyAdds (wait_addqueue s a b) rest
            from rfl]
          exact ih _ (fireInv_addqueue s h a b)

lemma fireInv_runDecMsg (s : Sys) (h : FireInv s) (qid wid : Nat) :
    FireInv (runDecMsg s qid wid) := by
  have hw : (runDecMsg s qid wid).waits = s.waits := runDecMsg_waits s qid wid
  have ht : (runDecMsg s qid wid).trace = s.trace := runDecMsg_trace s qid wid
  have hn : (runDecMsg s qid wid).nextW = s.nextW := by
    unfold runDecMsg
    cases h1 : s.waits wid <;> cases h2 : s.queues qid <;> simp
    split <;> rfl
  exact fireInv_of_shrink s _ h ht hn (fun k hk => by rw [hw]; exact hk)
    (fun k hk => by rw [hw] at hk; exact hk)

/-- `wait_runone` preserves the firing invariant: it can add a fire event
only for a live wait (hence not yet fired) and destroys the wait after
firing. -/
lemma fireInv_runone (eff : Nat → List (Nat × Nat)) (s : Sys) (h : FireInv s) (wid : Nat) :
    FireInv (wait_runone eff s wid) := by
  unfold wait_runone
  cases hw : s.waits wid with
  | none => exact h
  | some w =>
      simp only []
      by_cases hu : w.usecount - 1 = 0
      · rw [if_pos hu]
        have hnotf : ∀ e ∈ s.trace, e.wid ≠ wid := by
          intro e he hcon
          have := h.fired_dead e he
          rw [hcon, hw] at this
          cases this
        have hwlt : wid < s.nextW := h.alive_bound wid w hw
        set evs : List FireEv :=
          if w.cb = true then [.plain wid] else if w.hand.cb = true then [.hmsg wid] else []
          with hevs
        have hevwid : ∀ e ∈ evs, e.wid = wid := by
          intro e he
          rw [hevs] at he
          by_cases h1 : w.cb = true <;> by_cases h2 : w.hand.cb = true <;>
            simp [h1, h2] at he <;> simp [he, FireEv.wid]
        have hevlen : evs.length ≤ 1 := by
          rw [hevs]
          by_cases h1 : w.cb = true <;> by_cases h2 : w.hand.cb = true <;> simp [h1, h2]
        set s1 : Sys := { s with trace := s.trace ++ evs } with hs1
        set s2 : Sys := if evs.isEmpty = true then s1 else applyAdds s1 (eff wid) with hs2
        have hs2tr : s2.trace = s.trace ++ evs := by
          rw [hs2]
          exact trace_if_applyAdds _ _ _
        have hs2nw : s2.nextW = s.nextW := by
          rw [hs2]
          cases hc : evs.isEmpty
          · rw [if_neg (by simp)]
            rw [applyAdds_nextW]
          · simp
        have hs2dom : ∀ k, (s2.waits k).isSome = (s.waits k).isSome := by
          intro k
          rw [hs2]
          cases hc : evs.isEmpty
          · rw [if_neg (by simp)]
            rw [applyAdds_waits_isSome]
          · simp
        refine ⟨?_, ?_, ?_, ?_⟩
        · intro x
          simp only [setWait_trace]
          rw [hs2tr, fireCount_append]
          by_cases hx : x = wid
          · subst hx
            have hz : fireCount s.trace x = 0 := (fireCount_eq_zero_iff s.trace x).mpr hnotf
            have : fireCount evs x ≤ evs.length := List.countP_le_length _
            omega
          · have hz : fireCount evs x = 0 := by
              rw [fireCount_eq_zero_iff]
              intro e he
              rw [hevwid e he]
              exact fun hc => hx hc.symm
            have := h.once x
            omega
        · intro e he
          simp only [setWait_trace] at he
          rw [hs2tr] at he
          simp only [setWait_waits]
          rcases List.mem_append.mp he with hm | hm
          · rw [if_neg]
            · have hd := h.fired_dead e hm
              have := hs2dom e.wid
              rw [hd] at this
              simp only [Option.isSome_none] at this
              exact Option.not_isSome_iff_eq_none.mp (by rw [this]; simp)
            · intro hc
              exact (hnotf e hm) (by rw [hc])
          · rw [hevwid e hm, if_pos rfl]
        · intro x w' hw'
          simp only [setWait_waits] at hw'
          by_cases hx : x = wid
          · rw [if_pos hx] at hw'
            cases hw'
          · rw [if_neg hx] at hw'
            have := hs2dom x
            rw [hw'] at this
            simp only [Option.isSome_some] at this
            obtain ⟨w0, hw0⟩ := Option.isSome_iff_exists.mp this.symm
            have := h.alive_bound x w0 hw0
            simp only [setWait_nextW, hs2nw]
            omega
        · intro e he
          simp only [setWait_trace] at he
          rw [hs2tr] at he
          simp only [setWait_nextW, hs2nw]
          rcases List.mem_append.mp he with hm | hm
          · exact h.fired_bound e hm
          · rw [hevwid e hm]
            exact hwlt
      · rw [if_neg hu]
        refine fireInv_of_shrink s _ h rfl rfl ?_ ?_
        · intro k hk
          simp only [setWait_waits]
          by_cases hkw : k = wid
          · rw [hkw, hw] at hk
            cases hk
          · rw [if_neg hkw]
            exact hk
        · intro k hk
          simp only [setWait_waits] at hk
          by_cases hkw : k = wid
          · rw [hkw, hw]
            rfl
          · rw [if_neg hkw] at hk
            exact hk

lemma fireInv_runLoop (eff : Nat → List (Nat × Nat)) (qid : Nat) (P : List Nat)
    (s : Sys) (h : FireInv s) : FireInv (runLoop eff qid s P) := by
  induction P generalizing s with
  | nil => exact h
  | cons a rest ih =>
      exact ih _ (fireInv_runone eff _ (fireInv_runDecMsg s h qid a) a)

lemma fireInv_runqueue_eff (eff : Nat → List (Nat × Nat)) (qid : Nat) (s : Sys)
    (h : FireInv s) : FireInv (wait_runqueue_eff eff qid s) := by
  unfold wait_runqueue_eff
  cases hq : s.queues qid with
  | none => exact h
  | some q =>
      simp only []
      by_cases he : q.elems.isEmpty
      · rw [if_pos he]
        exact h
      · rw [if_neg he]
        apply fireInv_runLoop
        unfold purgeQueue
        rw [hq]
        exact fireInv_of_shrink s _ h rfl rfl (fun _ hk => hk) (fun _ hk => hk)

lemma destroyOne_trace (qid : Nat) (s : Sys) (wid : Nat) :
    (destroyOne qid s wid).trace = s.trace := by
  unfold destroyOne
  have step : ∀ s1 : Sys, s1.trace = s.trace →
      (match s1.waits wid with
        | some w =>
            if w.usecount - 1 = 0 then setWait s1 wid none
            else setWait s1 wid (some { w with usecount := w.usecount - 1 })
        | none => s1).trace = s.trace := by
    intro s1 ht
    cases hw : s1.waits wid with
    | none => exact ht
    | some w =>
        simp only []
        by_cases hu : w.usecount - 1 = 0
        · rw [if_pos hu]
          simpa using ht
        · rw [if_neg hu]
          simpa using ht
  cases h1 : s.queues qid with
  | none => exact step s rfl
  | some q => exact step _ rfl

lemma fireInv_destroyOne (qid : Nat) (s : Sys) (h : FireInv s) (wid : Nat) :
    FireInv (destroyOne qid s wid) := by
  unfold destroyOne
  have hmid : ∀ s1 : Sys, s1.waits = s.waits → s1.trace = s.trace → s1.nextW = s.nextW →
      FireInv (match s1.waits wid with
        | some w =>
            if w.usecount - 1 = 0 then setWait s1 wid none
            else setWait s1 wid (some { w with usecount := w.usecount - 1 })
        | none => s1) := by
    intro s1 hw ht hn
    have h1 : FireInv s1 :=
      fireInv_of_shrink s s1 h ht hn (fun k hk => by rw [hw]; exact hk)
        (fun k hk => by rw [hw] at hk; exact hk)
    cases hsw : s1.waits wid with
    | none => exact h1
    | some w =>
        simp only []
        by_cases hu : w.usecount - 1 = 0
        · rw [if_pos hu]
          refine fireInv_of_shrink s1 _ h1 rfl rfl ?_ ?_
          · intro k hk
            simp only [setWait_waits]
            by_cases hkw : k = wid <;> simp [hkw, hk]
          · intro k hk
            simp only [setWait_waits] at hk
            by_cases hkw : k = wid
            · rw [if_pos hkw] at hk
              cases hk
            · rw [if_neg hkw] at hk
              exact hk
        · rw [if_neg hu]
          refine fireInv_of_shrink s1 _ h1 rfl rfl ?_ ?_
          · intro k hk
            simp only [setWait_waits]
            by_cases hkw : k = wid
            · rw [hkw, hsw] at hk
              cases hk
            · rw [if_neg hkw]
              exact hk
          · intro k hk
            simp only [setWait_waits] at hk
            by_cases hkw : k = wid
            · rw [hkw, hsw]
              rfl
            · rw [if_neg hkw] at hk
              exact hk
  cases h1 : s.queues qid with
  | none => exact hmid s rfl rfl rfl
  | some q => exact hmid _ rfl rfl rfl

lemma fireInv_destroyPass (qid : Nat) (M : List Nat) (s : Sys) (h : FireInv s) :
    FireInv (destroyPass qid s M) := by
  induction M generalizing s with
  | nil => exact h
  | cons a rest ih => exact ih _ (fireInv_destroyOne qid s h a)

lemma clearCb_trace (M : List Nat) (s : Sys) : (clearCb s M).trace = s.trace := by
  induction M generalizing s with
  | nil => rfl
  | cons a rest ih =>
      rw [show clearCb s (a :: rest) = clearCb (match s.waits a with
        | some w => setWait s a (some { w with hand := { w.hand with cb := false } })
        | none => s) rest from rfl, ih]
      cases h : s.waits a <;> rfl

lemma clearCb_nextW (M : List Nat) (s : Sys) : (clearCb s M).nextW = s.nextW := by
  induction M generalizing s with
  | nil => rfl
  | cons a rest ih =>
      rw [show clearCb s (a :: rest) = clearCb (match s.waits a with
        | some w => setWait s a (some { w with hand := { w.hand with cb := false } })
        | none => s) rest from rfl, ih]
      cases h : s.waits a <;> rfl

lemma clearCb_waits_isSome (M : List Nat) (s : Sys) (k : Nat) :
    ((clearCb s M).waits k).isSome = (s.waits k).isSome := by
  induction M generalizing s with
  | nil => rfl
  | cons a rest ih =>
      rw [show clearCb s (a :: rest) = clearCb (match s.waits a with
        | some w => setWait s a (some { w with hand := { w.hand with cb := false } })
        | none => s) rest from rfl, ih]
      cases h : s.waits a with
      | none => rfl
      | some w =>
          simp only [setWait_waits]
          by_cases hk : k = a <;> simp [hk, h]

lemma fireInv_clearCb (M : List Nat) (s : Sys) (h : FireInv s) :
    FireInv (clearCb s M) :=
  fireInv_of_shrink s _ h (clearCb_trace M s) (clearCb_nextW M s)
    (fun k hk => by
      have := clearCb_waits_isSome M s k
      rw [hk] at this
      simp only [Option.isSome_none] at this
      exact Option.not_isSome_iff_eq_none.mp (by rw [this]; simp))
    (fun k hk => by rw [← clearCb_waits_isSome M s k]; exact hk)

lemma fireInv_destroy_msg (qid : Nat) (pred : Nat → Bool) (s : Sys) (h : FireInv s) :
    FireInv (wait_destroy_msg qid pred s) := by
  unfold wait_destroy_msg
  cases hq : s.queues qid with
  | none => exact h
  | some q =>
      simp only []
      exact fireInv_destroyPass _ _ _ (fireInv_clearCb _ s h)

lemma fireInv_applyOp (s : Sys) (h : FireInv s) (op : WQOp) : FireInv (applyOp s op) := by
  cases op with
  | createq => exact fireInv_queue_create s h
  | createw b => exact fireInv_newWait s h _
  | createmsg b => exact fireInv_newWait s h _
  | addq qid wid => exact fireInv_addqueue s h qid wid
  | runq qid => exact fireInv_runqueue_eff _ qid s h
  | delmsg qid pred => exact fireInv_destroy_msg qid pred s h

lemma fireInv_runFrom (ops : List WQOp) (s : Sys) (h : FireInv s) :
    FireInv (ops.foldl applyOp s) := by
  induction ops generalizing s with
  | nil => exact h
  | cons op rest ih => exact ih _ (fireInv_applyOp s h op)

lemma fireInv_runOps (ops : List WQOp) : FireInv (runOps ops) :=
  fireInv_runFrom ops Sys.init fireInv_init

/-! ### C2 continued: a cleared message handler never fires -/

lemma clearedB_lt (s : Sys) (wid : Nat) (h : clearedB s wid = true) : wid < s.nextW := by
  unfold clearedB at h
  simp only [Bool.and_eq_true, decide_eq_true_eq] at h
  exact h.1

lemma clearedB_cb (s : Sys) (wid : Nat) (h : clearedB s wid = true) (w : WaitObj)
    (hw : s.waits wid = some w) : w.hand.cb = false := by
  unfold clearedB at h
  rw [hw] at h
  simp only [Bool.and_eq_true] at h
  simpa using h.2

lemma clearedB_intro (s : Sys) (wid : Nat) (hlt : wid < s.nextW)
    (hcb : ∀ w, s.waits wid = some w → w.hand.cb = false) : clearedB s wid = true := by
  unfold clearedB
  cases hw : s.waits wid with
  | none => simp [hlt]
  | some w => simp [hlt, hcb w hw]

/-- Transfer of clearedness along a step that cannot set a handler
callback on the wait. -/
lemma clearedB_transfer (s s' : Sys) (wid : Nat) (h : clearedB s wid = true)
    (hnw : s.nextW ≤ s'.nextW)
    (hshape : ∀ w', s'.waits wid = some w' → w'.hand.cb = true →
       ∃ w, s.waits wid = some w ∧ w.hand.cb = true) :
    clearedB s' wid = true := by
  apply clearedB_intro
  · exact lt_of_lt_of_le (clearedB_lt s wid h) hnw
  · intro w' hw'
    by_contra hcb
    have hcb' : w'.hand.cb = true := by
      cases hb : w'.hand.cb
      · exact absurd hb hcb
      · rfl
    obtain ⟨w, hw, hc⟩ := hshape w' hw' hcb'
    have := clearedB_cb s wid h w hw
    rw [this] at hc
    cases hc

lemma clearCb_waits_shape (M : List Nat) (s : Sys) (k : Nat) (w' : WaitObj)
    (h : (clearCb s M).waits k = some w') :
    ∃ w, s.waits k = some w ∧ (w'.hand.cb = true → w.hand.cb = true) := by
  induction M generalizing s w' with
  | nil => exact ⟨w', h, fun hc => hc⟩
  | cons a rest ih =>
      rw [show clearCb s (a :: rest) = clearCb (match s.waits a with
        | some w => setWait s a (some { w with hand := { w.hand with cb := false } })
        | none => s) rest from rfl] at h
      obtain ⟨w1, hw1, hc1⟩ := ih _ _ h
      cases hsa : s.waits a with
      | none =>
          rw [hsa] at hw1
          exact ⟨w1, hw1, hc1⟩
      | some wa =>
          rw [hsa] at hw1
          simp only [setWait_waits] at hw1
          by_cases hk : k = a
          · rw [if_pos hk] at hw1
            cases hw1
            refine ⟨wa, by rw [hk]; exact hsa, fun hc => absurd (hc1 hc) (by simp)⟩
          · rw [if_neg hk] at hw1
            exact ⟨w1, hw1, hc1⟩

lemma destroyOne_waits_shape (qid : Nat) (s : Sys) (x k : Nat) (w' : WaitObj)
    (h : (destroyOne qid s x).waits k = some w') :
    ∃ w, s.waits k = some w ∧ w'.cb = w.cb ∧ w'.hand = w.hand := by
  revert h
  unfold destroyOne
  have step : ∀ s1 : Sys, s1.waits = s.waits →
      ((match s1.waits x with
        | some w =>
            if w.usecount - 1 = 0 then setWait s1 x none
            else setWait s1 x (some { w with usecount := w.usecount - 1 })
        | none => s1).waits k = some w' →
      ∃ w, s.waits k = some w ∧ w'.cb = w.cb ∧ w'.hand = w.hand) := by
    intro s1 hw
    cases hsx : s1.waits x with
    | none =>
        intro h
        rw [hw] at h
        exact ⟨w', h, rfl, rfl⟩
    | some wx =>
        simp only []
        by_cases hu : wx.usecount - 1 = 0
        · rw [if_pos hu]
          simp only [setWait_waits]
          by_cases hk : k = x
          · rw [if_pos hk]
            intro h
            cases h
          · rw [if_neg hk, hw]
            intro h
            exact ⟨w', h, rfl, rfl⟩
        · rw [if_neg hu]
          simp only [setWait_waits]
          by_cases hk : k = x
          · rw [if_pos hk]
            intro h
            cases h
            exact ⟨wx, by rw [hk, ← hw]; exact hsx, rfl, rfl⟩
          · rw [if_neg hk, hw]
            intro h
            exact ⟨w', h, rfl, rfl⟩
  cases h1 : s.queues qid with
  | none => exact step s rfl
  | some q => exact step _ rfl

lemma destroyOne_nextW (qid : Nat) (s : Sys) (x : Nat) :
    (destroyOne qid s x).nextW = s.nextW := by
  unfold destroyOne
  have step : ∀ s1 : Sys, s1.nextW = s.nextW →
      (match s1.waits x with
        | some w =>
            if w.usecount - 1 = 0 then setWait s1 x none
            else setWait s1 x (some { w with usecount := w.usecount - 1 })
        | none => s1).nextW = s.nextW := by
    intro s1 hn
    cases hsx : s1.waits x with
    | none => exact hn
    | some wx =>
        simp only []
        by_cases hu : wx.usecount - 1 = 0
        · rw [if_pos hu]
          simpa using hn
        · rw [if_neg hu]
          simpa using hn
  cases h1 : s.queues qid with
  | none => exact step s rfl
  | some q => exact step _ rfl

lemma destroyPass_trace (qid : Nat) (M : List Nat) (s : Sys) :
    (destroyPass qid s M).trace = s.trace := by
  induction M generalizing s with
  | nil => rfl
  | cons a rest ih =>
      rw [show destroyPass qid s (a :: rest) = destroyPass qid (destroyOne qid s a) rest
        from rfl, ih, destroyOne_trace]

lemma destroyPass_nextW (qid : Nat) (M : List Nat) (s : Sys) :
    (destroyPass qid s M).nextW = s.nextW := by
  induction M generalizing s with
  | nil => rfl
  | cons a rest ih =>
      rw [show destroyPass qid s (a :: rest) = destroyPass qid (destroyOne qid s a) rest
        from rfl, ih, destroyOne_nextW]

lemma destroyPass_waits_shape (qid : Nat) (M : List Nat) (s : Sys) (k : Nat) (w' : WaitObj)
    (h : (destroyPass qid s M).waits k = some w') :
    ∃ w, s.waits k = some w ∧ w'.cb = w.cb ∧ w'.hand = w.hand := by
  induction M generalizing s w' with
  | nil => exact ⟨w', h, rfl, rfl⟩
  | cons a rest ih =>
      rw [show destroyPass qid s (a :: rest) = destroyPass qid (destroyOne qid s a) rest
        from rfl] at h
      obtain ⟨w1, hw1, hc1, hh1⟩ := ih _ _ h
      obtain ⟨w0, hw0, hc0, hh0⟩ := destroyOne_waits_shape qid s a k w1 hw1
      exact ⟨w0, hw0, hc1.trans hc0, hh1.trans hh0⟩

/-- Once a wait's handler callback is cleared (or the wait is plain or
dead), one `wait_runone` step adds no message-handler fire event for it
and keeps it cleared. -/
lemma cleared_hmsg_runone (eff : Nat → List (Nat × Nat)) (s : Sys) (wid x : Nat)
    (h : clearedB s wid = true) :
    clearedB (wait_runone eff s x) wid = true ∧
    hmsgCount (wait_runone eff s x).trace wid = hmsgCount s.trace wid := by
  unfold wait_runone
  cases hw : s.waits x with
  | none => exact ⟨h, rfl⟩
  | some w =>
      simp only []
      by_cases hu : w.usecount - 1 = 0
      · rw [if_pos hu]
        set evs : List FireEv :=
          if w.cb = true then [.plain x] else if w.hand.cb = true then [.hmsg x] else []
          with hevs
        have hnomsg : hmsgCount evs wid = 0 := by
          unfold hmsgCount
          rw [List.countP_eq_zero]
          intro e he
          rw [hevs] at he
          by_cases h1 : w.cb = true
          · simp [h1] at he
            subst he
            simp
          · by_cases h2 : w.hand.cb = true
            · simp [h1, h2] at he
              subst he
              have hxw : x ≠ wid := by
                intro hc
                subst hc
                have hcb := clearedB_cb s x h w hw
                rw [hcb] at h2
                cases h2
              simp [hxw]
            · simp [h1, h2] at he
        set s1 : Sys := { s with trace := s.trace ++ evs } with hs1
        set s2 : Sys := if evs.isEmpty = true then s1 else applyAdds s1 (eff x) with hs2
        have hs2tr : s2.trace = s.trace ++ evs := by
          rw [hs2]
          exact trace_if_applyAdds _ _ _
        have hs2nw : s2.nextW = s.nextW := by
          rw [hs2]
          cases hc : evs.isEmpty
          · rw [if_neg (by simp)]
            rw [applyAdds_nextW]
          · simp
        have hs2shape : ∀ w', s2.waits wid = some w' → w'.hand.cb = true →
            ∃ w0, s.waits wid = some w0 ∧ w0.hand.cb = true := by
          intro w' hw' hcb
          rw [hs2] at hw'
          have : ∃ w0, s.waits wid = some w0 ∧ w'.hand = w0.hand := by
            cases hc : evs.isEmpty
            · rw [if_neg (by simp [hc])] at hw'
              obtain ⟨w0, hw0, _, hh0⟩ := applyAdds_waits_shape _ _ _ _ hw'
              exact ⟨w0, hw0, hh0⟩
            · rw [if_pos (by simp [hc])] at hw'
              exact ⟨w', hw', rfl⟩
          obtain ⟨w0, hw0, hh0⟩ := this
          exact ⟨w0, hw0, by rw [← hh0]; exact hcb⟩
        constructor
        · apply clearedB_transfer s _ wid h (by simp [hs2nw])
          intro w' hw' hcb
          simp only [setWait_waits] at hw'
          by_cases hk : wid = x
          · rw [if_pos hk] at hw'
            cases hw'
          · rw [if_neg hk] at hw'
            exact hs2shape w' hw' hcb
        · simp only [setWait_trace]
          rw [hs2tr, hmsgCount_append, hnomsg]
          simp
      · rw [if_neg hu]
        constructor
        · apply clearedB_transfer s _ wid h (by simp)
          intro w' hw' hcb
          simp only [setWait_waits] at hw'
          by_cases hk : wid = x
          · rw [if_pos hk] at hw'
            cases hw'
            refine ⟨w, by rw [hk]; exact hw, hcb⟩
          · rw [if_neg hk] at hw'
            exact ⟨w', hw', hcb⟩
        · simp

lemma cleared_hmsg_runDecMsg (s : Sys) (wid qid x : Nat) (h : clearedB s wid = true) :
    clearedB (runDecMsg s qid x) wid = true ∧
    hmsgCount (runDecMsg s qid x).trace wid = hmsgCount s.trace wid := by
  have hw := runDecMsg_waits s qid x
  have ht := runDecMsg_trace s qid x
  have hn : (runDecMsg s qid x).nextW = s.nextW := by
    unfold runDecMsg
    cases h1 : s.waits x <;> cases h2 : s.queues qid <;> simp
    split <;> rfl
  refine ⟨clearedB_transfer s _ wid h (by omega) ?_, by rw [ht]⟩
  intro w' hw' hcb
  rw [hw] at hw'
  exact ⟨w', hw', hcb⟩

lemma cleared_hmsg_runLoop (eff : Nat → List (Nat × Nat)) (qid : Nat) (P : List Nat)
    (s : Sys) (wid : Nat) (h : clearedB s wid = true) :
    clearedB (runLoop eff qid s P) wid = true ∧
    hmsgCount (runLoop eff qid s P).trace wid = hmsgCount s.trace wid := by
  induction P generalizing s with
  | nil => exact ⟨h, rfl⟩
  | cons a rest ih =>
      obtain ⟨h1, e1⟩ := cleared_hmsg_runDecMsg s wid qid a h
      obtain ⟨h2, e2⟩ := cleared_hmsg_runone eff (runDecMsg s qid a) wid a h1
      obtain ⟨h3, e3⟩ := ih _ h2
      refine ⟨h3, ?_⟩
      rw [show runLoop eff qid s (a :: rest)
          = runLoop eff qid (wait_runone eff (runDecMsg s qid a) a) rest from rfl]
      rw [e3, e2, e1]

lemma cleared_hmsg_applyOp (s : Sys) (wid : Nat) (op : WQOp)
    (h : clearedB s wid = true) :
    clearedB (applyOp s op) wid = true ∧
    hmsgCount (applyOp s op).trace wid = hmsgCount s.trace wid := by
  have hlt := clearedB_lt s wid h
  cases op with
  | createq =>
      refine ⟨clearedB_transfer s _ wid h (by exact le_refl s.nextW) ?_, rfl⟩
      intro w' hw' hcb
      have hw2 : s.waits wid = some w' := hw'
      exact ⟨w', hw2, hcb⟩
  | createw b =>
      refine ⟨clearedB_transfer s _ wid h (by exact Nat.le_succ s.nextW) ?_, rfl⟩
      intro w' hw' hcb
      have hw2 : (if wid = s.nextW then some (⟨0, b, ⟨false, false⟩⟩ : WaitObj)
          else s.waits wid) = some w' := hw'
      rw [if_neg (by omega)] at hw2
      exact ⟨w', hw2, hcb⟩
  | createmsg b =>
      refine ⟨clearedB_transfer s _ wid h (by exact Nat.le_succ s.nextW) ?_, rfl⟩
      intro w' hw' hcb
      have hw2 : (if wid = s.nextW then some (⟨0, false, ⟨b, true⟩⟩ : WaitObj)
          else s.waits wid) = some w' := hw'
      rw [if_neg (by omega)] at hw2
      exact ⟨w', hw2, hcb⟩
  | addq qid x =>
      refine ⟨clearedB_transfer s _ wid h ?_ ?_, ?_⟩
      · have hnw : (applyOp s (WQOp.addq qid x)).nextW = s.nextW :=
          wait_addqueue_nextW s qid x
        omega
      · intro w' hw' hcb
        obtain ⟨w0, hw0, _, hh0⟩ := wait_addqueue_waits_shape s qid x wid w' hw'
        exact ⟨w0, hw0, by rw [← hh0]; exact hcb⟩
      · have htr : (applyOp s (WQOp.addq qid x)).trace = s.trace :=
          wait_addqueue_trace s qid x
        rw [htr]
  | runq qid =>
      show clearedB (wait_runqueue qid s) wid = true ∧
        hmsgCount (wait_runqueue qid s).trace wid = hmsgCount s.trace wid
      unfold wait_runqueue wait_runqueue_eff
      cases hq : s.queues qid with
      | none => exact ⟨h, rfl⟩
      | some q =>
          simp only []
          by_cases he : q.elems.isEmpty
          · rw [if_pos he]
            exact ⟨h, rfl⟩
          · rw [if_neg he]
            have hpw : (purgeQueue s qid).waits = s.waits := by
              unfold purgeQueue
              rw [hq]
              rfl
            have hpt : (purgeQueue s qid).trace = s.trace := by
              unfold purgeQueue
              rw [hq]
              rfl
            have hpn : (purgeQueue s qid).nextW = s.nextW := by
              unfold purgeQueue
              rw [hq]
              rfl
            have hpc : clearedB (purgeQueue s qid) wid = true := by
              apply clearedB_transfer s _ wid h (by omega)
              intro w' hw' hcb
              rw [hpw] at hw'
              exact ⟨w', hw', hcb⟩
            obtain ⟨hc, he2⟩ := cleared_hmsg_runLoop (fun _ => []) qid q.elems
              (purgeQueue s qid) wid hpc
            exact ⟨hc, by rw [he2, hpt]⟩
  | delmsg qid pred =>
      show clearedB (wait_destroy_msg qid pred s) wid = true ∧
        hmsgCount (wait_destroy_msg qid pred s).trace wid = hmsgCount s.trace wid
      unfold wait_destroy_msg
      cases hq : s.queues qid with
      | none => exact ⟨h, rfl⟩
      | some q =>
          simp only []
          have hcc : clearedB (clearCb s (matchedList s pred q.elems)) wid = true := by
            apply clearedB_transfer s _ wid h (by rw [clearCb_nextW])
            intro w' hw' hcb
            obtain ⟨w0, hw0, hc0⟩ := clearCb_waits_shape _ s wid w' hw'
            exact ⟨w0, hw0, hc0 hcb⟩
          constructor
          · apply clearedB_transfer (clearCb s (matchedList s pred q.elems)) _ wid hcc
              (by rw [destroyPass_nextW])
            intro w' hw' hcb
            obtain ⟨w0, hw0, _, hh0⟩ := destroyPass_waits_shape qid _ _ wid w' hw'
            exact ⟨w0, hw0, by rw [← hh0]; exact hcb⟩
          · rw [destroyPass_trace, clearCb_trace]

lemma cleared_hmsg_fold (ops : List WQOp) (s : Sys) (wid : Nat)
    (h : clearedB s wid = true) :
    clearedB (ops.foldl applyOp s) wid = true ∧
    hmsgCount (ops.foldl applyOp s).trace wid = hmsgCount s.trace wid := by
  induction ops generalizing s with
  | nil => exact ⟨h, rfl⟩
  | cons op rest ih =>
      obtain ⟨h1, e1⟩ := cleared_hmsg_applyOp s wid op h
      obtain ⟨h2, e2⟩ := ih _ h1
      exact ⟨h2, by rw [List.foldl_cons, e2, e1]⟩

/-- C2: over any sequence of waitqueue operations from the initial state,
every wait fires at most once (counting both callback shapes), a fired
wait has been destroyed, and once a wait's message-handler callback has
been cleared by `wait_destroy_msg` (or the wait destroyed), no later
operations add a message-handler fire event for it. -/
theorem wait_callback_at_most_once (ops : List WQOp) (wid : Nat) :
    fireCount (runOps ops).trace wid ≤ 1 ∧
    (∀ e ∈ (runOps ops).trace, (runOps ops).waits e.wid = none) ∧
    (∀ ops₁ ops₂, ops = ops₁ ++ ops₂ → clearedB (runOps ops₁) wid = true →
      hmsgCount (runOps ops).trace wid = hmsgCount (runOps ops₁).trace wid) := by
  refine ⟨(fireInv_runOps ops).once wid, (fireInv_runOps ops).fired_dead, ?_⟩
  intro ops₁ ops₂ heq hcl
  subst heq
  rw [show runOps (ops₁ ++ ops₂) = ops₂.foldl applyOp (runOps ops₁) from by
    unfold runOps
    rw [List.foldl_append]]
  exact (cleared_hmsg_fold ops₂ (runOps ops₁) wid hcl).2

/-- C2 witness: a message-handler wait enqueued on two queues, cancelled
on the first via `wait_destroy_msg` and drained on the second, fires
nothing (spec scenario 7); the fire count stays at most one. -/
theorem wait_callback_at_most_once_witness :
    fireCount (runOps [WQOp.createq, WQOp.createq, WQOp.createmsg true,
      WQOp.addq 0 0, WQOp.addq 1 0, WQOp.delmsg 0 (fun _ => true),
      WQOp.runq 1]).trace 0 ≤ 1 ∧
    hmsgCount (runOps [WQOp.createq, WQOp.createq, WQOp.createmsg true,
      WQOp.addq 0 0, WQOp.addq 1 0, WQOp.delmsg 0 (fun _ => true),
      WQOp.runq 1]).trace 0 =
      hmsgCount (runOps [WQOp.createq, WQOp.createq, WQOp.createmsg true,
        WQOp.addq 0 0, WQOp.addq 1 0, WQOp.delmsg 0 (fun _ => true)]).trace 0 := by
  constructor
  · exact (wait_callback_at_most_once [WQOp.createq, WQOp.createq, WQOp.createmsg true,
      WQOp.addq 0 0, WQOp.addq 1 0, WQOp.delmsg 0 (fun _ => true), WQOp.runq 1] 0).1
  · exact (wait_callback_at_most_once [WQOp.createq, WQOp.createq, WQOp.createmsg true,
      WQOp.addq 0 0, WQOp.addq 1 0, WQOp.delmsg 0 (fun _ => true), WQOp.runq 1] 0).2.2
      [WQOp.createq, WQOp.createq, WQOp.createmsg true,
        WQOp.addq 0 0, WQOp.addq 1 0, WQOp.delmsg 0 (fun _ => true)]
      [WQOp.runq 1] rfl (by decide)

/-! ### C9: `wait_runqueue` processes the snapshot; appended waits wait -/

lemma runLoop_append (eff : Nat → List (Nat × Nat)) (qid : Nat) (P1 P2 : List Nat)
    (s : Sys) :
    runLoop eff qid s (P1 ++ P2) = runLoop eff qid (runLoop eff qid s P1) P2 := by
  induction P1 generalizing s with
  | nil => rfl
  | cons a rest ih => exact ih _

lemma wait_addqueue_queues_extend (s : Sys) (qid wid k : Nat) (q1 : WQ)
    (h : s.queues k = some q1) :
    ∃ q2 t, (wait_addqueue s qid wid).queues k = some q2 ∧ q2.elems = q1.elems ++ t := by
  unfold wait_addqueue
  cases h1 : s.queues qid with
  | none => exact ⟨q1, [], h, by simp⟩
  | some q =>
      cases h2 : s.waits wid with
      | none => exact ⟨q1, [], h, by simp⟩
      | some w =>
          simp only [setWait_queues, setQueue_queues]
          by_cases hk : k = qid
          · subst hk
            rw [h] at h1
            cases h1
            rw [if_pos rfl]
            exact ⟨_, [wid], rfl, rfl⟩
          · rw [if_neg hk]
            exact ⟨q1, [], h, by simp⟩

lemma applyAdds_queues_extend (adds : List (Nat × Nat)) (s : Sys) (k : Nat) (q1 : WQ)
    (h : s.queues k = some q1) :
    ∃ q2 t, (applyAdds s adds).queues k = some q2 ∧ q2.elems = q1.elems ++ t := by
  induction adds generalizing s q1 with
  | nil => exact ⟨q1, [], h, by simp⟩
  | cons p rest ih =>
      cases p with
      | mk a b =>
          obtain ⟨qm, t1, hqm, he1⟩ := wait_addqueue_queues_extend s a b k q1 h
          obtain ⟨q2, t2, hq2, he2⟩ := ih _ _ hqm
          refine ⟨q2, t1 ++ t2, ?_, ?_⟩
          · rw [show applyAdds s ((a, b) :: rest) = applyAdds (wait_addqueue s a b) rest
              from rfl]
            exact hq2
          · rw [he2, he1, List.append_assoc]

lemma wait_runone_queues_extend (eff : Nat → List (Nat × Nat)) (s : Sys) (x k : Nat)
    (q1 : WQ) (h : s.queues k = some q1) :
    ∃ q2 t, (wait_runone eff s x).queues k = some q2 ∧ q2.elems = q1.elems ++ t := by
  unfold wait_runone
  cases hw : s.waits x with
  | none => exact ⟨q1, [], h, by simp⟩
  | some w =>
      simp only []
      by_cases hu : w.usecount - 1 = 0
      · rw [if_pos hu]
        simp only [setWait_queues]
        cases hc : (if w.cb = true then [FireEv.plain x]
            else if w.hand.cb = true then [FireEv.hmsg x] else []).isEmpty
        · rw [if_neg (by simp [hc])]
          exact applyAdds_queues_extend (eff x) _ k q1 h
        · rw [if_pos (by simp [hc])]
          exact ⟨q1, [], h, by simp⟩
      · rw [if_neg hu]
        exact ⟨q1, [], h, by simp⟩

lemma runDecMsg_queues_extend (s : Sys) (qid x k : Nat) (q1 : WQ)
    (h : s.queues k = some q1) :
    ∃ q2, (runDecMsg s qid x).queues k = some q2 ∧ q2.elems = q1.elems := by
  have hm := runDecMsg_elems_map s qid x k
  rw [h] at hm
  have hm2 : ((runDecMsg s qid x).queues k).map WQ.elems = some q1.elems := hm
  obtain ⟨q2, hq2, he⟩ := Option.map_eq_some'.mp hm2
  exact ⟨q2, hq2, he⟩

lemma runLoop_queues_extend (eff : Nat → List (Nat × Nat)) (qid : Nat) (P : List Nat) :
    ∀ (s : Sys) (k : Nat) (q1 : WQ), s.queues k = some q1 →
      ∃ q2 t, (runLoop eff qid s P).queues k = some q2 ∧ q2.elems = q1.elems ++ t := by
  induction P with
  | nil => exact fun s k q1 h => ⟨q1, [], h, by simp⟩
  | cons a rest ih =>
      intro s k q1 h
      obtain ⟨qm, hqm, hem⟩ := runDecMsg_queues_extend s qid a k q1 h
      obtain ⟨qr, t1, hqr, her⟩ := wait_runone_queues_extend eff _ a k qm hqm
      obtain ⟨q2, t2, hq2, he2⟩ := ih _ k qr hqr
      exact ⟨q2, t1 ++ t2, hq2, by rw [he2, her, hem, List.append_assoc]⟩

lemma wait_addqueue_mem (s : Sys) (qid wid : Nat)
    (hq : (s.queues qid).isSome = true) (hw : (s.waits wid).isSome = true) :
    ∃ q2, (wait_addqueue s qid wid).queues qid = some q2 ∧ wid ∈ q2.elems := by
  obtain ⟨q, hq'⟩ := Option.isSome_iff_exists.mp hq
  obtain ⟨w, hw'⟩ := Option.isSome_iff_exists.mp hw
  unfold wait_addqueue
  rw [hq', hw']
  refine ⟨⟨q.elems ++ [wid], q.msgs_on_queue + if w.hand.msg = true then 1 else 0⟩,
    ?_, by simp⟩
  show (if qid = qid
      then some (⟨q.elems ++ [wid],
        q.msgs_on_queue + if w.hand.msg = true then 1 else 0⟩ : WQ)
      else s.queues qid)
    = some ⟨q.elems ++ [wid], q.msgs_on_queue + if w.hand.msg = true then 1 else 0⟩
  rw [if_pos rfl]

lemma applyAdds_mem (adds : List (Nat × Nat)) :
    ∀ (s : Sys) (qid wid : Nat), (qid, wid) ∈ adds →
      (s.waits wid).isSome = true → (s.queues qid).isSome = true →
      ∃ q2, (applyAdds s adds).queues qid = some q2 ∧ wid ∈ q2.elems := by
  induction adds with
  | nil =>
      intro s qid wid h
      cases h
  | cons p rest ih =>
      cases p with
      | mk a b =>
          intro s qid wid hmem halive hqex
          rcases List.mem_cons.mp hmem with heq | hrest
          · injection heq with h1 h2
            subst h1
            subst h2
            obtain ⟨qm, hqm, hwm⟩ := wait_addqueue_mem s qid wid hqex halive
            obtain ⟨q2, t, hq2, he2⟩ := applyAdds_queues_extend rest _ qid qm hqm
            refine ⟨q2, ?_, ?_⟩
            · rw [show applyAdds s ((qid, wid) :: rest)
                  = applyAdds (wait_addqueue s qid wid) rest from rfl]
              exact hq2
            · rw [he2]
              exact List.mem_append.mpr (Or.inl hwm)
          · have halive2 : ((wait_addqueue s a b).waits wid).isSome = true := by
              rw [wait_addqueue_waits_isSome]
              exact halive
            have hqex2 : ((wait_addqueue s a b).queues qid).isSome = true := by
              obtain ⟨q1, h1⟩ := Option.isSome_iff_exists.mp hqex
              obtain ⟨q2, t, h2, _⟩ := wait_addqueue_queues_extend s a b qid q1 h1
              rw [h2]
              rfl
            exact ih _ qid wid hrest halive2 hqex2

/-- C9: `wait_runqueue` processes exactly the entries present on the
queue when it started: every callback fired during the run belongs to an
entry of the starting snapshot (so a wait not in the snapshot — in
particular one appended by a callback during the run — is never fired in
that run); and a live wait appended to the queue by a fired callback is
on the queue when the run finishes, remaining queued for the next
`wait_runqueue`. -/
theorem wait_runqueue_snapshot (eff : Nat → List (Nat × Nat)) (s : Sys) (qid : Nat)
    (q : WQ) (hq : s.queues qid = some q) :
    (∃ t, (wait_runqueue_eff eff qid s).trace = s.trace ++ t ∧
       (∀ e ∈ t, e.wid ∈ q.elems) ∧
       ∀ wid, wid ∉ q.elems → ∀ e ∈ t, e.wid ≠ wid) ∧
    (∀ (L1 L2 : List Nat) (f : Nat) (w : WaitObj) (wid' : Nat),
       q.elems = L1 ++ f :: L2 →
       (runLoop eff qid (purgeQueue s qid) L1).waits f = some w →
       w.usecount = 1 →
       (w.cb = true ∨ w.hand.cb = true) →
       (qid, wid') ∈ eff f →
       ((runLoop eff qid (purgeQueue s qid) L1).waits wid').isSome = true →
       wid' ≠ f →
       ∃ q2, (wait_runqueue_eff eff qid s).queues qid = some q2 ∧ wid' ∈ q2.elems) := by
  constructor
  · unfold wait_runqueue_eff
    rw [hq]
    try simp only []
    by_cases he : q.elems.isEmpty
    · rw [if_pos he]
      exact ⟨[], by simp, by simp, by simp⟩
    · rw [if_neg he]
      obtain ⟨t, ht, hm⟩ := runLoop_trace eff qid q.elems (purgeQueue s qid)
      have hpt : (purgeQueue s qid).trace = s.trace := by
        unfold purgeQueue
        rw [hq]
        rfl
      refine ⟨t, by rw [ht, hpt], hm, ?_⟩
      intro wid hnm e hme hc
      exact hnm (hc ▸ hm e hme)
  · intro L1 L2 f w wid' hsplit hmid huse hcb hin halive hne
    have hrun : wait_runqueue_eff eff qid s = runLoop eff qid (purgeQueue s qid) q.elems := by
      unfold wait_runqueue_eff
      rw [hq]
      try simp only []
      rw [if_neg (by rw [hsplit]; simp)]
    rw [hrun, hsplit, runLoop_append]
    rw [show runLoop eff qid (runLoop eff qid (purgeQueue s qid) L1) (f :: L2)
        = runLoop eff qid
            (wait_runone eff
              (runDecMsg (runLoop eff qid (purgeQueue s qid) L1) qid f) f) L2 from rfl]
    have hpq : (purgeQueue s qid).queues qid = some { q with elems := [] } := by
      unfold purgeQueue
      rw [hq]
      simp
    obtain ⟨qmid, tmid, hqmid, _⟩ :=
      runLoop_queues_extend eff qid L1 (purgeQueue s qid) qid _ hpq
    obtain ⟨qdec, hqdec, _⟩ :=
      runDecMsg_queues_extend (runLoop eff qid (purgeQueue s qid) L1) qid f qid qmid hqmid
    have hwdec : (runDecMsg (runLoop eff qid (purgeQueue s qid) L1) qid f).waits
        = (runLoop eff qid (purgeQueue s qid) L1).waits := runDecMsg_waits _ qid f
    -- the fired runone step appends wid' to the queue
    have hstep : ∃ q3, (wait_runone eff
        (runDecMsg (runLoop eff qid (purgeQueue s qid) L1) qid f) f).queues qid = some q3 ∧
        wid' ∈ q3.elems := by
      unfold wait_runone
      rw [hwdec, hmid]
      simp only []
      rw [if_pos (by rw [huse]; ring)]
      simp only [setWait_queues]
      have hevne : (if w.cb = true then [FireEv.plain f]
          else if w.hand.cb = true then [FireEv.hmsg f] else []).isEmpty = false := by
        rcases hcb with hc | hc
        · rw [hc]
          rfl
        · by_cases h1 : w.cb = true
          · rw [h1]
            rfl
          · simp [h1, hc]
      rw [if_neg (by simp [hevne])]
      apply applyAdds_mem (eff f) _ qid wid' hin
      · exact halive
      · exact (show ((runDecMsg (runLoop eff qid (purgeQueue s qid) L1) qid f).queues
            qid).isSome = true by rw [hqdec]; rfl)
    obtain ⟨q3, hq3, hw3⟩ := hstep
    obtain ⟨q2, t2, hq2, he2⟩ := runLoop_queues_extend eff qid L2 _ qid q3 hq3
    refine ⟨q2, hq2, ?_⟩
    rw [he2]
    exact List.mem_append.mpr (Or.inl hw3)

/-- C9 witness: a callback fired for the only queued wait appends a
fresh wait to the same queue; the appended wait is on the queue after
the run. -/
theorem wait_runqueue_snapshot_witness :
    ∃ q2, (wait_runqueue_eff (fun x => if x = 0 then [(0, 1)] else []) 0
        ⟨fun k => if k = 0 then some ⟨1, true, ⟨false, false⟩⟩
            else if k = 1 then some ⟨0, true, ⟨false, false⟩⟩ else none,
         fun k => if k = 0 then some ⟨[0], 0⟩ else none, 2, 1, []⟩).queues 0 = some q2 ∧
      1 ∈ q2.elems :=
  (wait_runqueue_snapshot (fun x => if x = 0 then [(0, 1)] else [])
    ⟨fun k => if k = 0 then some ⟨1, true, ⟨false, false⟩⟩
        else if k = 1 then some ⟨0, true, ⟨false, false⟩⟩ else none,
     fun k => if k = 0 then some ⟨[0], 0⟩ else none, 2, 1, []⟩ 0 ⟨[0], 0⟩ rfl).2
    [] [] 0 ⟨1, true, ⟨false, false⟩⟩ 1 rfl rfl rfl (Or.inl rfl) (by decide) rfl
    (by decide)

/-! ### C8: support lemmas for the `msgs_on_queue` invariant -/

lemma occTotal_setWait (s : Sys) (wid : Nat) (v : Option WaitObj) (x : Nat) :
    occTotal (setWait s wid v) x = occTotal s x := rfl

lemma occInQueue_setQueue_self (s : Sys) (qid : Nat) (q' : WQ) (x : Nat) :
    occInQueue (setQueue s qid (some q')) qid x = q'.elems.count x := by
  unfold occInQueue
  simp

lemma occInQueue_setQueue_other (s : Sys) (qid k : Nat) (v : Option WQ) (x : Nat)
    (h : k ≠ qid) : occInQueue (setQueue s qid v) k x = occInQueue s k x := by
  unfold occInQueue
  simp [h]

/-- Replacing one queue changes `occTotal` by the difference of that
queue's occurrence counts (additive form, safe for `Nat`). -/
lemma occTotal_setQueue (s : Sys) (qid : Nat) (q' : WQ) (hlt : qid < s.nextQ) (x : Nat) :
    occTotal (setQueue s qid (some q')) x + occInQueue s qid x
      = occTotal s x + q'.elems.count x := by
  unfold occTotal
  have hmem : qid ∈ Finset.range s.nextQ := Finset.mem_range.mpr hlt
  rw [show (setQueue s qid (some q')).nextQ = s.nextQ from rfl]
  rw [← Finset.sum_erase_add (Finset.range s.nextQ) _ hmem,
    ← Finset.sum_erase_add (Finset.range s.nextQ) (fun k => occInQueue s k x) hmem]
  rw [Finset.sum_congr rfl (fun k hk =>
    occInQueue_setQueue_other s qid k (some q') x (Finset.mem_erase.mp hk).1)]
  rw [occInQueue_setQueue_self]
  omega

lemma occTotal_congr_queues (s s' : Sys)
    (hq : ∀ k, (s'.queues k).map WQ.elems = (s.queues k).map WQ.elems)
    (hn : s'.nextQ = s.nextQ) (x : Nat) : occTotal s' x = occTotal s x := by
  unfold occTotal
  rw [hn]
  apply Finset.sum_congr rfl
  intro k _
  unfold occInQueue
  have hk := hq k
  cases h1 : s.queues k with
  | none =>
      rw [h1] at hk
      cases h2 : s'.queues k with
      | none => rfl
      | some q2 =>
          rw [h2] at hk
          simp at hk
  | some q1 =>
      rw [h1] at hk
      cases h2 : s'.queues k with
      | none =>
          rw [h2] at hk
          simp at hk
      | some q2 =>
          rw [h2] at hk
          simp only [Option.map_some'] at hk
          rw [Option.some.injEq] at hk
          simp only []
          rw [hk]

lemma occTotal_eq_zero_notmem (s : Sys) (x : Nat)
    (hqdom : ∀ k, s.nextQ ≤ k → s.queues k = none)
    (h : occTotal s x = 0) : ∀ qid q, s.queues qid = some q → x ∉ q.elems := by
  intro qid q hq hmem
  by_cases hlt : qid < s.nextQ
  · have hz : occInQueue s qid x = 0 := by
      unfold occTotal at h
      exact Finset.sum_eq_zero_iff.mp h qid (Finset.mem_range.mpr hlt)
    unfold occInQueue at hz
    rw [hq] at hz
    exact (List.count_eq_zero.mp hz) hmem
  · rw [hqdom qid (by omega)] at hq
    cases hq

lemma msgBearing_setQueue (s : Sys) (qid : Nat) (v : Option WQ) (x : Nat) :
    msgBearing (setQueue s qid v) x = msgBearing s x := rfl

lemma msgBearing_setWait_other (s : Sys) (wid : Nat) (v : Option WaitObj) (x : Nat)
    (h : x ≠ wid) : msgBearing (setWait s wid v) x = msgBearing s x := by
  unfold msgBearing
  simp [h]

lemma msgBearing_setWait_same_hand (s : Sys) (wid : Nat) (w w' : WaitObj)
    (hw : s.waits wid = some w) (hh : w'.hand.msg = w.hand.msg) (x : Nat) :
    msgBearing (setWait s wid (some w')) x = msgBearing s x := by
  unfold msgBearing
  by_cases hx : x = wid
  · subst hx
    rw [hw]
    simp [hh]
  · simp [hx]

lemma countP_msgB_congr (s s' : Sys) (l : List Nat)
    (h : ∀ x ∈ l, msgBearing s' x = msgBearing s x) :
    (l.countP fun x => msgBearing s' x) = l.countP fun x => msgBearing s x :=
  List.countP_congr (fun x hx => by rw [h x hx])

lemma countP_erase_of_mem (p : Nat → Bool) (l : List Nat) (a : Nat) (h : a ∈ l) :
    List.countP p (l.erase a) + (if p a then 1 else 0) = List.countP p l := by
  induction l with
  | nil => cases h
  | cons b rest ih =>
      by_cases hb : b = a
      · subst hb
        rw [List.erase_cons_head, List.countP_cons]
      · rw [List.erase_cons_tail (by simp [hb]), List.countP_cons, List.countP_cons]
        have hmem : a ∈ rest := by
          rcases List.mem_cons.mp h with hh | hh
          · exact absurd hh.symm hb
          · exact hh
        have := ih hmem
        omega

/-- Characterization of `runDecMsg` at a live wait and existing queue. -/
lemma runDecMsg_spec (s : Sys) (qid wid : Nat) (q : WQ) (w : WaitObj)
    (hq : s.queues qid = some q) (hw : s.waits wid = some w) :
    (runDecMsg s qid wid).waits = s.waits ∧
    (runDecMsg s qid wid).queues qid
      = some ⟨q.elems, q.msgs_on_queue - (if w.hand.msg then 1 else 0)⟩ ∧
    (∀ k, k ≠ qid → (runDecMsg s qid wid).queues k = s.queues k) ∧
    (runDecMsg s qid wid).nextW = s.nextW ∧
    (runDecMsg s qid wid).nextQ = s.nextQ := by
  unfold runDecMsg
  rw [hw, hq]
  simp only []
  by_cases hm : w.hand.msg
  · rw [if_pos hm]
    refine ⟨rfl, ?_, ?_, rfl, rfl⟩
    · simp [hm]
    · intro k hk
      simp [hk]
  · rw [if_neg hm]
    refine ⟨rfl, ?_, fun k hk => rfl, rfl, rfl⟩
    rw [hq]
    simp [hm]

lemma wf_init : WF Sys.init := by
  refine ⟨?_, ?_, ?_, ?_, ?_⟩
  · intro k _
    rfl
  · intro k _
    rfl
  · intro qid q hq
    cases hq
  · intro wid w hw
    cases hw
  · intro qid q hq
    cases hq

lemma wf_elem_lt (s : Sys) (h : WF s) (qid : Nat) (q : WQ) (hq : s.queues qid = some q)
    (wid : Nat) (hm : wid ∈ q.elems) : wid < s.nextW := by
  have ha := h.elem_alive qid q hq wid hm
  by_contra hge
  rw [h.wdom wid (by omega)] at ha
  cases ha

lemma wf_queue_lt (s : Sys) (h : WF s) (qid : Nat) (q : WQ)
    (hq : s.queues qid = some q) : qid < s.nextQ := by
  by_contra hge
  rw [h.qdom qid (by omega)] at hq
  cases hq

lemma occTotal_queue_create (s : Sys) (x : Nat) :
    occTotal (wait_queue_create s) x = occTotal s x := by
  unfold occTotal
  rw [show (wait_queue_create s).nextQ = s.nextQ + 1 from rfl]
  rw [Finset.sum_range_succ]
  have h1 : occInQueue (wait_queue_create s) s.nextQ x = 0 := by
    unfold occInQueue
    rw [show (wait_queue_create s).queues s.nextQ = some ⟨[], 0⟩ from by
      show (if s.nextQ = s.nextQ then some (⟨[], 0⟩ : WQ) else s.queues s.nextQ)
        = some ⟨[], 0⟩
      rw [if_pos rfl]]
    simp
  rw [h1, add_zero]
  apply Finset.sum_congr rfl
  intro k hk
  have hlt := Finset.mem_range.mp hk
  unfold occInQueue
  rw [show (wait_queue_create s).queues k = s.queues k from by
    show (if k = s.nextQ then some (⟨[], 0⟩ : WQ) else s.queues k) = s.queues k
    rw [if_neg (Nat.ne_of_lt hlt)]]

lemma wf_queue_create (s : Sys) (h : WF s) : WF (wait_queue_create s) := by
  have hmsgB : ∀ x, msgBearing (wait_queue_create s) x = msgBearing s x := fun _ => rfl
  refine ⟨?_, ?_, ?_, ?_, ?_⟩
  · intro k hk
    exact h.wdom k hk
  · intro k hk
    have hnq : (wait_queue_create s).nextQ = s.nextQ + 1 := rfl
    show (if k = s.nextQ then some (⟨[], 0⟩ : WQ) else s.queues k) = none
    rw [if_neg (by omega)]
    exact h.qdom k (by omega)
  · intro qid q hq
    have hq' : (if qid = s.nextQ then some (⟨[], 0⟩ : WQ) else s.queues qid) = some q := hq
    by_cases hk : qid = s.nextQ
    · rw [if_pos hk] at hq'
      cases hq'
      intro wid hm
      cases hm
    · rw [if_neg hk] at hq'
      exact h.elem_alive qid q hq'
  · intro wid w hw
    rw [occTotal_queue_create]
    exact h.use_eq wid w hw
  · intro qid q hq
    have hq' : (if qid = s.nextQ then some (⟨[], 0⟩ : WQ) else s.queues qid) = some q := hq
    rw [countP_msgB_congr s (wait_queue_create s) q.elems (fun x _ => hmsgB x)]
    by_cases hk : qid = s.nextQ
    · rw [if_pos hk] at hq'
      cases hq'
      simp
    · rw [if_neg hk] at hq'
      exact h.counter_eq qid q hq'

/-- Creating a wait with use-count 0 preserves well-formedness (the
fresh id occurs on no queue). -/
lemma wf_newWait (s : Sys) (h : WF s) (w0 : WaitObj) (hu0 : w0.usecount = 0) :
    WF { setWait s s.nextW (some w0) with nextW := s.nextW + 1 } := by
  set s' : Sys := { setWait s s.nextW (some w0) with nextW := s.nextW + 1 } with hs'
  have hocc : ∀ x, occTotal s' x = occTotal s x := fun _ => rfl
  have hq' : s'.queues = s.queues := rfl
  have hfresh : occTotal s s.nextW = 0 := by
    unfold occTotal
    apply Finset.sum_eq_zero
    intro k _
    unfold occInQueue
    cases hk : s.queues k with
    | none => rfl
    | some q =>
        simp only []
        rw [List.count_eq_zero]
        intro hm
        have := wf_elem_lt s h k q hk s.nextW hm
        omega
  have hmsgB : ∀ x, x ≠ s.nextW → msgBearing s' x = msgBearing s x := by
    intro x hx
    unfold msgBearing
    show (match (if x = s.nextW then some w0 else s.waits x) with
      | some w => w.hand.msg
      | none => false) = _
    rw [if_neg hx]
  have hnw : s'.nextW = s.nextW + 1 := rfl
  refine ⟨?_, ?_, ?_, ?_, ?_⟩
  · intro k hk
    show (if k = s.nextW then some w0 else s.waits k) = none
    rw [if_neg (by omega)]
    exact h.wdom k (by omega)
  · intro k hk
    exact h.qdom k hk
  · intro qid q hq wid hm
    have hlt := wf_elem_lt s h qid q hq wid hm
    show ((if wid = s.nextW then some w0 else s.waits wid)).isSome = true
    rw [if_neg (by omega)]
    exact h.elem_alive qid q hq wid hm
  · intro wid w hw
    have hw' : (if wid = s.nextW then some w0 else s.waits wid) = some w := hw
    rw [hocc]
    by_cases hk : wid = s.nextW
    · rw [if_pos hk] at hw'
      cases hw'
      rw [hk, hfresh, hu0]
      rfl
    · rw [if_neg hk] at hw'
      exact h.use_eq wid w hw'
  · intro qid q hq
    rw [countP_msgB_congr s s' q.elems (fun x hx =>
      hmsgB x (by
        have := wf_elem_lt s h qid q hq x hx
        omega))]
    exact h.counter_eq qid q hq

lemma wf_create (s : Sys) (h : WF s) (b : Bool) : WF (wait_create b s) :=
  wf_newWait s h ⟨0, b, ⟨false, false⟩⟩ rfl

lemma wf_create_msg (s : Sys) (h : WF s) (b : Bool) : WF (wait_create_msg_handler b s) :=
  wf_newWait s h ⟨0, false, ⟨b, true⟩⟩ rfl

lemma wf_addqueue (s : Sys) (h : WF s) (qid wid : Nat) :
    WF (wait_addqueue s qid wid) := by
  unfold wait_addqueue
  cases hq : s.queues qid with
  | none => exact h
  | some q =>
      cases hw : s.waits wid with
      | none => exact h
      | some w =>
          simp only []
          have hqlt : qid < s.nextQ := wf_queue_lt s h qid q hq
          have hwlt : wid < s.nextW := by
            by_contra hge
            rw [h.wdom wid (by omega)] at hw
            cases hw
          set qnew : WQ := ⟨q.elems ++ [wid],
            q.msgs_on_queue + if w.hand.msg = true then 1 else 0⟩ with hqnew
          set s1 : Sys := setQueue s qid (some qnew) with hs1
          set s2 : Sys := setWait s1 wid (some { w with usecount := w.usecount + 1 })
            with hs2
          have hocc1 : ∀ x, occTotal s1 x + occInQueue s qid x
              = occTotal s x + qnew.elems.count x := fun x =>
            occTotal_setQueue s qid qnew hqlt x
          have hocc2 : ∀ x, occTotal s2 x = occTotal s1 x := fun x => rfl
          have hoccq : ∀ x, occInQueue s qid x = q.elems.count x := by
            intro x
            unfold occInQueue
            rw [hq]
          have hcnt : ∀ x, qnew.elems.count x
              = q.elems.count x + if x = wid then 1 else 0 := by
            intro x
            rw [hqnew]
            show (q.elems ++ [wid]).count x = _
            rw [List.count_append]
            by_cases hx : x = wid
            · subst hx
              simp
            · simp [List.count_singleton, hx]
          have hmsgB : ∀ x, msgBearing s2 x = msgBearing s x := by
            intro x
            rw [hs2]
            rw [msgBearing_setWait_same_hand s1 wid w
              ({ w with usecount := w.usecount + 1 }) (by rw [hs1]; exact hw) rfl x]
            rw [hs1, msgBearing_setQueue]
          have hwaits : ∀ x, s2.waits x
              = if x = wid then some { w with usecount := w.usecount + 1 }
                else s.waits x := by
            intro x
            rw [hs2]
            simp only [setWait_waits]
            rw [hs1]
            rfl
          have hqueues : ∀ k, s2.queues k = if k = qid then some qnew else s.queues k := by
            intro k
            rfl
          refine ⟨?_, ?_, ?_, ?_, ?_⟩
          · intro k hk
            rw [hwaits k, if_neg (by
              show ¬k = wid
              have : s2.nextW = s.nextW := rfl
              omega)]
            exact h.wdom k (by
              have : s2.nextW = s.nextW := rfl
              omega)
          · intro k hk
            rw [hqueues k, if_neg (by
              have : s2.nextQ = s.nextQ := rfl
              omega)]
            exact h.qdom k (by
              have : s2.nextQ = s.nextQ := rfl
              omega)
          · intro qid' q' hq' x hm
            rw [hwaits x]
            by_cases hx : x = wid
            · rw [if_pos hx]
              rfl
            · rw [if_neg hx]
              rw [hqueues qid'] at hq'
              by_cases hk : qid' = qid
              · rw [if_pos hk] at hq'
                cases hq'
                rw [hqnew] at hm
                rcases List.mem_append.mp hm with hm1 | hm2
                · exact h.elem_alive qid q hq x hm1
                · rw [List.mem_singleton] at hm2
                  exact absurd hm2 hx
              · rw [if_neg hk] at hq'
                exact h.elem_alive qid' q' hq' x hm
          · intro x wx hwx
            rw [hwaits x] at hwx
            rw [hocc2]
            by_cases hx : x = wid
            · rw [if_pos hx] at hwx
              cases hwx
              subst hx
              have hu := h.use_eq x w hw
              have h1 := hocc1 x
              have h2 := hoccq x
              have h3 := hcnt x
              rw [if_pos rfl] at h3
              show w.usecount + 1 = (occTotal s1 x : Int)
              omega
            · rw [if_neg hx] at hwx
              have hu := h.use_eq x wx hwx
              have h1 := hocc1 x
              have h2 := hoccq x
              have h3 := hcnt x
              rw [if_neg hx] at h3
              omega
          · intro qid' q' hq'
            rw [hqueues qid'] at hq'
            by_cases hk : qid' = qid
            · rw [if_pos hk] at hq'
              cases hq'
              rw [countP_msgB_congr s s2 qnew.elems (fun x _ => hmsgB x)]
              have hc := h.counter_eq qid q hq
              rw [hqnew]
              show q.msgs_on_queue + (if w.hand.msg = true then 1 else 0)
                = ((q.elems ++ [wid]).countP (fun x => msgBearing s x) : Int)
              rw [List.countP_append]
              have hsing : List.countP (fun x => msgBearing s x) [wid]
                  = if w.hand.msg = true then 1 else 0 := by
                rw [List.countP_cons]
                simp only [List.countP_nil]
                unfold msgBearing
                rw [hw]
                by_cases hm : w.hand.msg = true <;> simp [hm]
              rw [hsing]
              push_cast
              omega
            · rw [if_neg hk] at hq'
              rw [countP_msgB_congr s s2 q'.elems (fun x _ => hmsgB x)]
              exact h.counter_eq qid' q' hq'

lemma if_applyAddsNil (c : Bool) (s1 : Sys) :
    (if c = true then s1 else applyAdds s1 []) = s1 := by
  cases c <;> rfl

/-- One iteration of the effect-free `wait_runqueue` loop preserves the
loop invariant, consuming the head of the pending list. -/
lemma runInv_step (qid wid : Nat) (P : List Nat) (s : Sys)
    (h : RunInv qid (wid :: P) s) :
    RunInv qid P (wait_runone (fun _ => []) (runDecMsg s qid wid) wid) := by
  obtain ⟨w, hw⟩ := Option.isSome_iff_exists.mp (h.p_alive wid (by simp))
  obtain ⟨q, hq⟩ := Option.isSome_iff_exists.mp h.qsome
  obtain ⟨hdW, hdQ, hdO, hdNW, hdNQ⟩ := runDecMsg_spec s qid wid q w hq hw
  have hwlt : wid < s.nextW := by
    by_contra hge
    rw [h.wdom wid (by omega)] at hw
    cases hw
  have hqlt : qid < s.nextQ := by
    by_contra hge
    rw [h.qdom qid (by omega)] at hq
    cases hq
  set sd := runDecMsg s qid wid with hsd
  set msgbit : Int := if w.hand.msg then 1 else 0 with hmb
  have hdocc : ∀ x, occTotal sd x = occTotal s x := by
    intro x
    apply occTotal_congr_queues
    · intro k
      by_cases hk : k = qid
      · subst hk
        rw [hdQ, hq]
        rfl
      · rw [hdO k hk]
    · exact hdNQ
  have hdmsgB : ∀ x, msgBearing sd x = msgBearing s x := by
    intro x
    unfold msgBearing
    rw [hdW]
  have hmbw : msgBearing s wid = w.hand.msg := by
    unfold msgBearing
    rw [hw]
  have hcntPcons : ∀ l : List Nat,
      (List.countP (fun x => msgBearing s x) (wid :: l) : Int)
        = (List.countP (fun x => msgBearing s x) l : Int) + msgbit := by
    intro l
    rw [List.countP_cons, hmbw, hmb]
    by_cases hm : w.hand.msg = true <;> simp [hm]
  have husum := h.use_eq wid w hw
  have hcount1 : (List.count wid (wid :: P) : Int) = (List.count wid P : Int) + 1 := by
    rw [List.count_cons_self]
    push_cast
    ring
  have hcq := h.counter_q q hq
  have hww : sd.waits wid = some w := by
    rw [hdW]
    exact hw
  unfold wait_runone
  rw [hww]
  simp only []
  by_cases hu : w.usecount - 1 = 0
  · rw [if_pos hu]
    rw [if_applyAddsNil]
    have hocc0 : occTotal s wid = 0 ∧ P.count wid = 0 := by
      constructor <;> omega
    obtain ⟨hoccz, hcntz⟩ := hocc0
    have hnotmem := occTotal_eq_zero_notmem s wid h.qdom hoccz
    have hwnP : wid ∉ P := List.count_eq_zero.mp hcntz
    set evs : List FireEv := if w.cb = true then [FireEv.plain wid]
      else if w.hand.cb = true then [FireEv.hmsg wid] else [] with hevs
    set F : Sys := setWait { sd with trace := sd.trace ++ evs } wid none with hF
    show RunInv qid P F
    have hFw : ∀ k, F.waits k = if k = wid then none else s.waits k := by
      intro k
      rw [hF]
      simp only [setWait_waits]
      by_cases hk : k = wid
      · simp [hk]
      · simp only [if_neg hk]
        show sd.waits k = s.waits k
        rw [hdW]
    have hFq : ∀ k, F.queues k = sd.queues k := fun k => rfl
    have hFnw : F.nextW = s.nextW := hdNW
    have hFnq : F.nextQ = s.nextQ := hdNQ
    have hFocc : ∀ x, occTotal F x = occTotal s x := by
      intro x
      rw [show occTotal F x = occTotal sd x from rfl]
      exact hdocc x
    have hFmsgB : ∀ x, x ≠ wid → msgBearing F x = msgBearing s x := by
      intro x hx
      unfold msgBearing
      rw [hFw x, if_neg hx]
    refine ⟨?_, ?_, ?_, ?_, ?_, ?_, ?_, ?_⟩
    · intro k hk
      rw [hFw k, if_neg (by rw [hFnw] at hk; omega)]
      exact h.wdom k (by rw [hFnw] at hk; omega)
    · intro k hk
      rw [hFq k]
      by_cases hkq : k = qid
      · exact absurd hk (by rw [hFnq, hkq]; omega)
      · rw [hdO k hkq]
        exact h.qdom k (by rw [hFnq] at hk; omega)
    · intro qid' q' hq' x hm
      rw [hFq qid'] at hq'
      by_cases hk : qid' = qid
      · rw [hk, hdQ] at hq'
        cases hq'
        have hxne : x ≠ wid := fun hc => hnotmem qid q hq (hc ▸ hm)
        rw [hFw x, if_neg hxne]
        exact h.elem_alive qid q hq x hm
      · rw [hdO qid' hk] at hq'
        have hxne : x ≠ wid := fun hc => hnotmem qid' q' hq' (hc ▸ hm)
        rw [hFw x, if_neg hxne]
        exact h.elem_alive qid' q' hq' x hm
    · intro x hx
      have hxne : x ≠ wid := fun hc => hwnP (hc ▸ hx)
      rw [hFw x, if_neg hxne]
      exact h.p_alive x (List.mem_cons_of_mem wid hx)
    · intro x wx hwx
      rw [hFw x] at hwx
      by_cases hx : x = wid
      · rw [if_pos hx] at hwx
        cases hwx
      · rw [if_neg hx] at hwx
        have := h.use_eq x wx hwx
        have hc : List.count x (wid :: P) = List.count x P :=
          List.count_cons_of_ne hx P
        rw [hFocc x]
        omega
    · intro q' hq'
      rw [hFq qid, hdQ] at hq'
      cases hq'
      have hcongr1 : (q.elems.countP fun x => msgBearing F x)
          = q.elems.countP fun x => msgBearing s x :=
        List.countP_congr (fun x hx => by
          rw [hFmsgB x (fun hc => hnotmem qid q hq (hc ▸ hx))])
      have hcongr2 : (P.countP fun x => msgBearing F x)
          = P.countP fun x => msgBearing s x :=
        List.countP_congr (fun x hx => by
          rw [hFmsgB x (fun hc => hwnP (hc ▸ hx))])
      show q.msgs_on_queue - msgbit
        = ((q.elems.countP fun x => msgBearing F x : Nat) : Int)
          + ((P.countP fun x => msgBearing F x : Nat) : Int)
      rw [hcongr1, hcongr2]
      have := hcntPcons P
      omega
    · intro qid' q' hne hq'
      rw [hFq qid', hdO qid' hne] at hq'
      have hcongr : (q'.elems.countP fun x => msgBearing F x)
          = q'.elems.countP fun x => msgBearing s x :=
        List.countP_congr (fun x hx => by
          rw [hFmsgB x (fun hc => hnotmem qid' q' hq' (hc ▸ hx))])
      rw [hcongr]
      exact h.counter_o qid' q' hne hq'
    · rw [show F.queues qid = sd.queues qid from rfl, hdQ]
      rfl
  · rw [if_neg hu]
    set w' : WaitObj := { w with usecount := w.usecount - 1 } with hw'
    set F : Sys := setWait sd wid (some w') with hF
    show RunInv qid P F
    have hFw : ∀ k, F.waits k = if k = wid then some w' else s.waits k := by
      intro k
      rw [hF]
      simp only [setWait_waits]
      by_cases hk : k = wid
      · simp [hk]
      · simp only [if_neg hk]
        show sd.waits k = s.waits k
        rw [hdW]
    have hFq : ∀ k, F.queues k = sd.queues k := fun k => rfl
    have hFnw : F.nextW = s.nextW := hdNW
    have hFnq : F.nextQ = s.nextQ := hdNQ
    have hFocc : ∀ x, occTotal F x = occTotal s x := by
      intro x
      rw [show occTotal F x = occTotal sd x from rfl]
      exact hdocc x
    have hFmsgB : ∀ x, msgBearing F x = msgBearing s x := by
      intro x
      unfold msgBearing
      rw [hFw x]
      by_cases hx : x = wid
      · rw [if_pos hx, hx, hw]
      · rw [if_neg hx]
    refine ⟨?_, ?_, ?_, ?_, ?_, ?_, ?_, ?_⟩
    · intro k hk
      rw [hFw k, if_neg (by rw [hFnw] at hk; omega)]
      exact h.wdom k (by rw [hFnw] at hk; omega)
    · intro k hk
      rw [hFq k]
      by_cases hkq : k = qid
      · exact absurd hk (by rw [hFnq, hkq]; omega)
      · rw [hdO k hkq]
        exact h.qdom k (by rw [hFnq] at hk; omega)
    · intro qid' q' hq' x hm
      rw [hFw x]
      by_cases hx : x = wid
      · rw [if_pos hx]
        rfl
      · rw [if_neg hx]
        rw [hFq qid'] at hq'
        by_cases hk : qid' = qid
        · rw [hk, hdQ] at hq'
          cases hq'
          exact h.elem_alive qid q hq x hm
        · rw [hdO qid' hk] at hq'
          exact h.elem_alive qid' q' hq' x hm
    · intro x hx
      rw [hFw x]
      by_cases hxw : x = wid
      · rw [if_pos hxw]
        rfl
      · rw [if_neg hxw]
        exact h.p_alive x (List.mem_cons_of_mem wid hx)
    · intro x wx hwx
      rw [hFw x] at hwx
      rw [hFocc x]
      by_cases hx : x = wid
      · rw [if_pos hx] at hwx
        cases hwx
        subst hx
        show w.usecount - 1 = (occTotal s x : Int) + (List.count x P : Int)
        omega
      · rw [if_neg hx] at hwx
        have := h.use_eq x wx hwx
        have hc : List.count x (wid :: P) = List.count x P :=
          List.count_cons_of_ne hx P
        omega
    · intro q' hq'
      rw [hFq qid, hdQ] at hq'
      cases hq'
      have hcongr1 : (q.elems.countP fun x => msgBearing F x)
          = q.elems.countP fun x => msgBearing s x :=
        List.countP_congr (fun x _ => by rw [hFmsgB x])
      have hcongr2 : (P.countP fun x => msgBearing F x)
          = P.countP fun x => msgBearing s x :=
        List.countP_congr (fun x _ => by rw [hFmsgB x])
      show q.msgs_on_queue - msgbit
        = ((q.elems.countP fun x => msgBearing F x : Nat) : Int)
          + ((P.countP fun x => msgBearing F x : Nat) : Int)
      rw [hcongr1, hcongr2]
      have := hcntPcons P
      omega
    · intro qid' q' hne hq'
      rw [hFq qid', hdO qid' hne] at hq'
      have hcongr : (q'.elems.countP fun x => msgBearing F x)
          = q'.elems.countP fun x => msgBearing s x :=
        List.countP_congr (fun x _ => by rw [hFmsgB x])
      rw [hcongr]
      exact h.counter_o qid' q' hne hq'
    · rw [show F.queues qid = sd.queues qid from rfl, hdQ]
      rfl

lemma runInv_nil (qid : Nat) (s : Sys) (h : RunInv qid [] s) : WF s := by
  refine ⟨h.wdom, h.qdom, h.elem_alive, ?_, ?_⟩
  · intro wid w hw
    have := h.use_eq wid w hw
    simpa using this
  · intro qid' q hq
    by_cases hk : qid' = qid
    · subst hk
      have := h.counter_q q hq
      simpa using this
    · exact h.counter_o qid' q hk hq

lemma runInv_start (qid : Nat) (s : Sys) (q : WQ) (h : WF s)
    (hq : s.queues qid = some q) : RunInv qid q.elems (purgeQueue s qid) := by
  have hqlt := wf_queue_lt s h qid q hq
  have hpq : purgeQueue s qid = setQueue s qid (some { q with elems := [] }) := by
    unfold purgeQueue
    rw [hq]
  rw [hpq]
  set s' := setQueue s qid (some { q with elems := [] }) with hs'
  have hocc : ∀ x, occTotal s' x + q.elems.count x = occTotal s x := by
    intro x
    have h1 := occTotal_setQueue s qid ({ q with elems := [] }) hqlt x
    have h2 : occInQueue s qid x = q.elems.count x := by
      unfold occInQueue
      rw [hq]
    rw [← hs'] at h1
    simp only [List.count_nil] at h1
    omega
  have hmsgB : ∀ x, msgBearing s' x = msgBearing s x := fun x => rfl
  have hq'self : s'.queues qid = some ⟨[], q.msgs_on_queue⟩ := by
    rw [hs']
    simp
  refine ⟨h.wdom, ?_, ?_, ?_, ?_, ?_, ?_, ?_⟩
  · intro k hk
    have hnq : s'.nextQ = s.nextQ := rfl
    rw [hs']
    simp only [setQueue_queues]
    rw [if_neg (by rw [hnq] at hk; omega)]
    exact h.qdom k (by rw [hnq] at hk; omega)
  · intro qid' q' hq' x hm
    have hq'' : (if qid' = qid then some (⟨[], q.msgs_on_queue⟩ : WQ)
        else s.queues qid') = some q' := by
      rw [← hq']
      rw [hs']
      simp only [setQueue_queues]
    by_cases hk : qid' = qid
    · rw [if_pos hk] at hq''
      cases hq''
      cases hm
    · rw [if_neg hk] at hq''
      exact h.elem_alive qid' q' hq'' x hm
  · intro x hx
    exact h.elem_alive qid q hq x hx
  · intro x wx hwx
    have := h.use_eq x wx hwx
    have h2 := hocc x
    omega
  · intro q' hq'
    rw [hq'self] at hq'
    cases hq'
    have hc := h.counter_eq qid q hq
    have hcong : (q.elems.countP fun x => msgBearing s' x)
        = q.elems.countP fun x => msgBearing s x :=
      List.countP_congr (fun x _ => by rw [hmsgB x])
    show q.msgs_on_queue
      = ((List.countP (fun x => msgBearing s' x) [] : Nat) : Int)
        + ((q.elems.countP fun x => msgBearing s' x : Nat) : Int)
    rw [hcong]
    simp only [List.countP_nil]
    omega
  · intro qid' q' hne hq'
    have hq'' : s.queues qid' = some q' := by
      rw [← hq']
      rw [hs']
      simp only [setQueue_queues]
      rw [if_neg hne]
    have hc := h.counter_eq qid' q' hq''
    have hcong : (q'.elems.countP fun x => msgBearing s' x)
        = q'.elems.countP fun x => msgBearing s x :=
      List.countP_congr (fun x _ => by rw [hmsgB x])
    rw [hcong]
    exact hc
  · rw [hq'self]
    rfl

lemma runInv_loop (qid : Nat) (P : List Nat) :
    ∀ s, RunInv qid P s → WF (runLoop (fun _ => []) qid s P) := by
  induction P with
  | nil => exact fun s h => runInv_nil qid s h
  | cons a rest ih => exact fun s h => ih _ (runInv_step qid a rest s h)

lemma wf_runqueue (s : Sys) (h : WF s) (qid : Nat) : WF (wait_runqueue qid s) := by
  unfold wait_runqueue wait_runqueue_eff
  cases hq : s.queues qid with
  | none => exact h
  | some q =>
      simp only []
      by_cases he : q.elems.isEmpty
      · rw [if_pos he]
        exact h
      · rw [if_neg he]
        exact runInv_loop qid q.elems _ (runInv_start qid s q h hq)

lemma clearCb_queues (M : List Nat) : ∀ s : Sys, (clearCb s M).queues = s.queues := by
  induction M with
  | nil => exact fun s => rfl
  | cons a rest ih =>
      intro s
      rw [show clearCb s (a :: rest) = clearCb (match s.waits a with
        | some w => setWait s a (some { w with hand := { w.hand with cb := false } })
        | none => s) rest from rfl]
      rw [ih]
      cases hsa : s.waits a <;> rfl

lemma clearCb_nextQ (M : List Nat) : ∀ s : Sys, (clearCb s M).nextQ = s.nextQ := by
  induction M with
  | nil => exact fun s => rfl
  | cons a rest ih =>
      intro s
      rw [show clearCb s (a :: rest) = clearCb (match s.waits a with
        | some w => setWait s a (some { w with hand := { w.hand with cb := false } })
        | none => s) rest from rfl]
      rw [ih]
      cases hsa : s.waits a <;> rfl

/-- Pointwise effect of the clearing pass: a processed wait keeps its
use-count, plain callback and message flag, losing only `hand.cb`. -/
lemma clearCb_waits_pointwise (M : List Nat) : ∀ (s : Sys) (k : Nat),
    (clearCb s M).waits k
      = Option.map
          (fun w => if k ∈ M then { w with hand := { w.hand with cb := false } } else w)
          (s.waits k) := by
  induction M with
  | nil =>
      intro s k
      cases hsk : s.waits k <;> simp [clearCb, hsk]
  | cons a rest ih =>
      intro s k
      rw [show clearCb s (a :: rest) = clearCb (match s.waits a with
        | some w => setWait s a (some { w with hand := { w.hand with cb := false } })
        | none => s) rest from rfl]
      rw [ih]
      cases hsa : s.waits a with
      | none =>
          simp only []
          by_cases hk : k = a
          · rw [hk, hsa]
            simp
          · cases hsk : s.waits k <;> simp [List.mem_cons, hk]
      | some wa =>
          simp only [setWait_waits]
          by_cases hk : k = a
          · rw [if_pos hk, hk, hsa]
            simp only [Option.map_some']
            rw [if_pos (List.mem_cons_self a rest)]
            by_cases hr : a ∈ rest
            · rw [if_pos hr]
            · rw [if_neg hr]
          · rw [if_neg hk]
            cases hsk : s.waits k <;> simp [List.mem_cons, hk]

lemma clearCb_msgB (M : List Nat) (s : Sys) (x : Nat) :
    msgBearing (clearCb s M) x = msgBearing s x := by
  unfold msgBearing
  rw [clearCb_waits_pointwise M s x]
  cases hsx : s.waits x with
  | none => rfl
  | some w =>
      simp only [Option.map_some']
      by_cases hm : x ∈ M <;> simp [hm]

/-- The clearing pass of `wait_destroy_msg` preserves well-formedness. -/
lemma wf_clearCb (s : Sys) (h : WF s) (M : List Nat) : WF (clearCb s M) := by
  have hw := fun k => clearCb_waits_pointwise M s k
  have hq : (clearCb s M).queues = s.queues := clearCb_queues M s
  have hnw : (clearCb s M).nextW = s.nextW := clearCb_nextW M s
  have hnq : (clearCb s M).nextQ = s.nextQ := clearCb_nextQ M s
  have hocc : ∀ x, occTotal (clearCb s M) x = occTotal s x :=
    fun x => occTotal_congr_queues s (clearCb s M) (fun k => by rw [hq]) hnq x
  refine ⟨?_, ?_, ?_, ?_, ?_⟩
  · intro k hk
    rw [hw k, h.wdom k (by rw [hnw] at hk; omega)]
    rfl
  · intro k hk
    rw [hq]
    exact h.qdom k (by rw [hnq] at hk; omega)
  · intro qid q hqq x hm
    rw [hq] at hqq
    rw [hw x]
    have halive := h.elem_alive qid q hqq x hm
    cases hsx : s.waits x with
    | none =>
        rw [hsx] at halive
        cases halive
    | some w => rfl
  · intro wid w' hw'
    rw [hw wid] at hw'
    cases hsx : s.waits wid with
    | none =>
        rw [hsx] at hw'
        cases hw'
    | some w =>
        rw [hsx] at hw'
        simp only [Option.map_some'] at hw'
        rw [Option.some.injEq] at hw'
        have hu : w'.usecount = w.usecount := by
          by_cases hm : wid ∈ M
          · rw [if_pos hm] at hw'
            rw [← hw']
          · rw [if_neg hm] at hw'
            rw [← hw']
        rw [hocc wid, hu]
        exact h.use_eq wid w hsx
  · intro qid q hqq
    rw [hq] at hqq
    have hc := h.counter_eq qid q hqq
    rw [countP_msgB_congr s (clearCb s M) q.elems (fun x _ => clearCb_msgB M s x)]
    exact hc

lemma occInQueue_le_occTotal (s : Sys) (qid x : Nat) (hlt : qid < s.nextQ) :
    occInQueue s qid x ≤ occTotal s x := by
  unfold occTotal
  have h : ∀ i ∈ Finset.range s.nextQ, 0 ≤ occInQueue s i x := fun i _ => Nat.zero_le _
  exact Finset.single_le_sum h (Finset.mem_range.mpr hlt)

/-- One iteration of the second `wait_destroy_msg` pass preserves the
invariant, consuming the head of the collected list. -/
lemma delInv_step (qid x : Nat) (R : List Nat) (s : Sys)
    (h : DelInv qid (x :: R) s) : DelInv qid R (destroyOne qid s x) := by
  have hcnt := h.m_count x
  rw [List.count_cons_self] at hcnt
  cases hq : s.queues qid with
  | none =>
      have hzero : occInQueue s qid x = 0 := by
        unfold occInQueue
        rw [hq]
      rw [hzero] at hcnt
      exact absurd hcnt (by omega)
  | some q =>
      have hoq : occInQueue s qid x = q.elems.count x := by
        unfold occInQueue
        rw [hq]
      rw [hoq] at hcnt
      have hcq : 1 ≤ q.elems.count x := by omega
      have hxmem : x ∈ q.elems := by
        by_contra hnm
        rw [List.count_eq_zero.mpr hnm] at hcq
        omega
      have halive := h.wf.elem_alive qid q hq x hxmem
      obtain ⟨w, hw⟩ := Option.isSome_iff_exists.mp halive
      have hqlt := wf_queue_lt s h.wf qid q hq
      have huse := h.wf.use_eq x w hw
      have hole := occInQueue_le_occTotal s qid x hqlt
      rw [hoq] at hole
      have hmsgx : msgBearing s x = true := h.m_msg x (List.mem_cons_self x R)
      have hctr := h.wf.counter_eq qid q hq
      have hcerase : List.countP (fun y => msgBearing s y) (q.elems.erase x)
          + (if msgBearing s x = true then 1 else 0)
          = List.countP (fun y => msgBearing s y) q.elems :=
        countP_erase_of_mem _ q.elems x hxmem
      have hcer1 : List.countP (fun y => msgBearing s y) (q.elems.erase x) + 1
          = List.countP (fun y => msgBearing s y) q.elems := by
        rw [hmsgx] at hcerase
        simpa using hcerase
      unfold destroyOne
      rw [hq]
      simp only []
      set s1 : Sys := setQueue s qid (some ⟨q.elems.erase x, q.msgs_on_queue - 1⟩)
        with hs1
      have hw1 : s1.waits x = some w := hw
      rw [hw1]
      simp only []
      have hs1qq : s1.queues qid = some ⟨q.elems.erase x, q.msgs_on_queue - 1⟩ := by
        rw [hs1]
        simp
      have hs1q : ∀ k, k ≠ qid → s1.queues k = s.queues k := by
        intro k hk
        rw [hs1]
        simp [hk]
      have hocc1 := occTotal_setQueue s qid ⟨q.elems.erase x, q.msgs_on_queue - 1⟩ hqlt
      rw [← hs1] at hocc1
      have hcex : (q.elems.erase x).count x = q.elems.count x - 1 :=
        List.count_erase_self x q.elems
      have hocc1x : occTotal s1 x = occTotal s x - 1 := by
        have h1 : occTotal s1 x + occInQueue s qid x
            = occTotal s x + (q.elems.erase x).count x := hocc1 x
        rw [hoq] at h1
        omega
      have hoccge1 : 1 ≤ occTotal s x := by omega
      have hocc1o : ∀ y, y ≠ x → occTotal s1 y = occTotal s y := by
        intro y hy
        have h1 : occTotal s1 y + occInQueue s qid y
            = occTotal s y + (q.elems.erase x).count y := hocc1 y
        have h2 : (q.elems.erase x).count y = q.elems.count y :=
          List.count_erase_of_ne hy q.elems
        have h4 : occInQueue s qid y = q.elems.count y := by
          unfold occInQueue
          rw [hq]
        omega
      have hqdom1 : ∀ k, s1.nextQ ≤ k → s1.queues k = none := by
        intro k hk
        have hnq1 : s1.nextQ = s.nextQ := rfl
        rw [hnq1] at hk
        rw [hs1q k (by omega)]
        exact h.wf.qdom k (by omega)
      by_cases hu : w.usecount - 1 = 0
      · rw [if_pos hu]
        have hoccs1 : occTotal s x = 1 := by omega
        have hcnt1 : q.elems.count x = 1 := by omega
        have hocc1x0 : occTotal s1 x = 0 := by omega
        have hxnotR : x ∉ R := by
          have : R.count x = 0 := by omega
          exact List.count_eq_zero.mp this
        have hnotmem := occTotal_eq_zero_notmem s1 x hqdom1 hocc1x0
        set F : Sys := setWait s1 x none with hF
        have hFw : ∀ k, F.waits k = if k = x then none else s.waits k := by
          intro k
          rw [hF]
          simp only [setWait_waits]
          by_cases hk : k = x
          · simp [hk]
          · simp only [if_neg hk]
            rfl
        have hFq : ∀ k, F.queues k = s1.queues k := fun k => rfl
        have hFocc : ∀ y, occTotal F y = occTotal s1 y := fun y => rfl
        have hFmsgB : ∀ y, y ≠ x → msgBearing F y = msgBearing s y := by
          intro y hy
          unfold msgBearing
          rw [hFw y, if_neg hy]
        refine ⟨⟨?_, ?_, ?_, ?_, ?_⟩, ?_, ?_⟩
        · intro k hk
          rw [hFw k]
          by_cases hk2 : k = x
          · rw [if_pos hk2]
          · rw [if_neg hk2]
            exact h.wf.wdom k hk
        · intro k hk
          rw [hFq k]
          exact hqdom1 k hk
        · intro k qk hqk y hy
          rw [hFq k] at hqk
          have hyne : y ≠ x := fun hc => hnotmem k qk hqk (hc ▸ hy)
          rw [hFw y, if_neg hyne]
          by_cases hk : k = qid
          · rw [hk, hs1qq] at hqk
            cases hqk
            exact h.wf.elem_alive qid q hq y (List.mem_of_mem_erase hy)
          · rw [hs1q k hk] at hqk
            exact h.wf.elem_alive k qk hqk y hy
        · intro y wy hwy
          rw [hFw y] at hwy
          by_cases hy : y = x
          · rw [if_pos hy] at hwy
            cases hwy
          · rw [if_neg hy] at hwy
            have := h.wf.use_eq y wy hwy
            rw [hFocc y, hocc1o y hy]
            exact this
        · intro k qk hqk
          rw [hFq k] at hqk
          by_cases hk : k = qid
          · rw [hk, hs1qq] at hqk
            cases hqk
            have hcong : ((q.elems.erase x).countP fun y => msgBearing F y)
                = (q.elems.erase x).countP fun y => msgBearing s y :=
              List.countP_congr (fun y hy => by
                rw [hFmsgB y (fun hc => hnotmem qid _ hs1qq (hc ▸ hy))])
            show q.msgs_on_queue - 1
              = (((q.elems.erase x).countP fun y => msgBearing F y : Nat) : Int)
            rw [hcong]
            omega
          · rw [hs1q k hk] at hqk
            have hcong : (qk.elems.countP fun y => msgBearing F y)
                = qk.elems.countP fun y => msgBearing s y :=
              List.countP_congr (fun y hy => by
                rw [hFmsgB y (fun hc =>
                  hnotmem k qk (by rw [hs1q k hk]; exact hqk) (hc ▸ hy))])
            rw [hcong]
            exact h.wf.counter_eq k qk hqk
        · intro y
          have hoqF : occInQueue F qid y = (q.elems.erase x).count y := by
            unfold occInQueue
            rw [hFq qid, hs1qq]
          rw [hoqF]
          by_cases hy : y = x
          · rw [hy]
            have : R.count x = 0 := by omega
            omega
          · have h2 : (q.elems.erase x).count y = q.elems.count y :=
              List.count_erase_of_ne hy q.elems
            have h3 := h.m_count y
            have h4 : (x :: R).count y = R.count y := List.count_cons_of_ne hy R
            have h5 : occInQueue s qid y = q.elems.count y := by
              unfold occInQueue
              rw [hq]
            omega
        · intro y hyR
          have hyne : y ≠ x := fun hc => hxnotR (hc ▸ hyR)
          rw [hFmsgB y hyne]
          exact h.m_msg y (List.mem_cons_of_mem x hyR)
      · rw [if_neg hu]
        set w' : WaitObj := { w with usecount := w.usecount - 1 } with hw'
        set F : Sys := setWait s1 x (some w') with hF
        have hFw : ∀ k, F.waits k = if k = x then some w' else s.waits k := by
          intro k
          rw [hF]
          simp only [setWait_waits]
          by_cases hk : k = x
          · simp [hk]
          · simp only [if_neg hk]
            rfl
        have hFq : ∀ k, F.queues k = s1.queues k := fun k => rfl
        have hFocc : ∀ y, occTotal F y = occTotal s1 y := fun y => rfl
        have hFmsgB : ∀ y, msgBearing F y = msgBearing s y := by
          intro y
          unfold msgBearing
          rw [hFw y]
          by_cases hy : y = x
          · rw [if_pos hy, hy, hw]
          · rw [if_neg hy]
        refine ⟨⟨?_, ?_, ?_, ?_, ?_⟩, ?_, ?_⟩
        · intro k hk
          have hnwF : F.nextW = s.nextW := rfl
          rw [hnwF] at hk
          rw [hFw k]
          have hxlt : x < s.nextW := by
            by_contra hge
            rw [h.wf.wdom x (by omega)] at hw
            cases hw
          rw [if_neg (by intro hc; omega)]
          exact h.wf.wdom k hk
        · intro k hk
          rw [hFq k]
          exact hqdom1 k hk
        · intro k qk hqk y hy
          rw [hFw y]
          by_cases hy2 : y = x
          · rw [if_pos hy2]
            rfl
          · rw [if_neg hy2]
            rw [hFq k] at hqk
            by_cases hk : k = qid
            · rw [hk, hs1qq] at hqk
              cases hqk
              exact h.wf.elem_alive qid q hq y (List.mem_of_mem_erase hy)
            · rw [hs1q k hk] at hqk
              exact h.wf.elem_alive k qk hqk y hy
        · intro y wy hwy
          rw [hFw y] at hwy
          rw [hFocc y]
          by_cases hy : y = x
          · rw [if_pos hy] at hwy
            cases hwy
            rw [hy, hocc1x]
            show w.usecount - 1 = ((occTotal s x - 1 : Nat) : Int)
            omega
          · rw [if_neg hy] at hwy
            rw [hocc1o y hy]
            exact h.wf.use_eq y wy hwy
        · intro k qk hqk
          rw [hFq k] at hqk
          by_cases hk : k = qid
          · rw [hk, hs1qq] at hqk
            cases hqk
            have hcong : ((q.elems.erase x).countP fun y => msgBearing F y)
                = (q.elems.erase x).countP fun y => msgBearing s y :=
              List.countP_congr (fun y _ => by rw [hFmsgB y])
            show q.msgs_on_queue - 1
              = (((q.elems.erase x).countP fun y => msgBearing F y : Nat) : Int)
            rw [hcong]
            omega
          · rw [hs1q k hk] at hqk
            have hcong : (qk.elems.countP fun y => msgBearing F y)
                = qk.elems.countP fun y => msgBearing s y :=
              List.countP_congr (fun y _ => by rw [hFmsgB y])
            rw [hcong]
            exact h.wf.counter_eq k qk hqk
        · intro y
          have hoqF : occInQueue F qid y = (q.elems.erase x).count y := by
            unfold occInQueue
            rw [hFq qid, hs1qq]
          rw [hoqF]
          by_cases hy : y = x
          · rw [hy]
            omega
          · have h2 : (q.elems.erase x).count y = q.elems.count y :=
              List.count_erase_of_ne hy q.elems
            have h3 := h.m_count y
            have h4 : (x :: R).count y = R.count y := List.count_cons_of_ne hy R
            have h5 : occInQueue s qid y = q.elems.count y := by
              unfold occInQueue
              rw [hq]
            omega
        · intro y hyR
          rw [hFmsgB y]
          exact h.m_msg y (List.mem_cons_of_mem x hyR)

lemma delInv_pass (qid : Nat) (M : List Nat) :
    ∀ s, DelInv qid M s → WF (destroyPass qid s M) := by
  induction M with
  | nil => exact fun s h => h.wf
  | cons a rest ih => exact fun s h => ih _ (delInv_step qid a rest s h)

/-- `wait_destroy_msg` preserves well-formedness: the cleared-then-removed
entries are exactly the matching message-bearing entries of the queue. -/
lemma wf_destroy_msg (qid : Nat) (pred : Nat → Bool) (s : Sys) (h : WF s) :
    WF (wait_destroy_msg qid pred s) := by
  unfold wait_destroy_msg
  cases hq : s.queues qid with
  | none => exact h
  | some q =>
      simp only []
      apply delInv_pass
      have hsub : ∀ wid, (matchedList s pred q.elems).count wid ≤ q.elems.count wid := by
        intro wid
        unfold matchedList
        exact List.Sublist.count_le (List.filter_sublist q.elems) wid
      have hmsg : ∀ wid ∈ matchedList s pred q.elems, msgBearing s wid = true := by
        intro wid hwid
        unfold matchedList at hwid
        have hp := List.of_mem_filter hwid
        cases hsw : s.waits wid with
        | none =>
            rw [hsw] at hp
            simp only [] at hp
            cases hp
        | some w =>
            rw [hsw] at hp
            simp only [] at hp
            unfold msgBearing
            rw [hsw]
            simp only []
            have hp2 : w.hand.msg = true ∧ pred wid = true := by
              simpa using hp
            exact hp2.1
      refine ⟨wf_clearCb s h _, ?_, ?_⟩
      · intro wid
        have hoq : occInQueue (clearCb s (matchedList s pred q.elems)) qid wid
            = q.elems.count wid := by
          unfold occInQueue
          rw [clearCb_queues (matchedList s pred q.elems) s, hq]
        rw [hoq]
        exact hsub wid
      · intro wid hwid
        rw [clearCb_msgB (matchedList s pred q.elems) s wid]
        exact hmsg wid hwid

/-- Every single API call preserves well-formedness. -/
lemma wf_applyOp (s : Sys) (h : WF s) (op : WQOp) : WF (applyOp s op) := by
  cases op with
  | createq => exact wf_queue_create s h
  | createw b => exact wf_create s h b
  | createmsg b => exact wf_create_msg s h b
  | addq qid wid => exact wf_addqueue s h qid wid
  | runq qid => exact wf_runqueue s h qid
  | delmsg qid pred => exact wf_destroy_msg qid pred s h

lemma wf_runFrom (ops : List WQOp) : ∀ s, WF s → WF (ops.foldl applyOp s) := by
  induction ops with
  | nil => exact fun s h => h
  | cons op rest ih => exact fun s h => ih _ (wf_applyOp s h op)

lemma wf_runOps (ops : List WQOp) : WF (runOps ops) :=
  wf_runFrom ops Sys.init wf_init

/-- C8: after any sequence of waitqueue API calls, each queue's
`msgs_on_queue` counter equals the number of entries on that queue whose
wait carries a message (`w->hand.msg`), as stated by the comment at
`waitqueue.c` lines 45-47. -/
theorem msgs_on_queue_invariant (ops : List WQOp) (qid : Nat) (q : WQ)
    (hq : (runOps ops).queues qid = some q) :
    q.msgs_on_queue
      = ((q.elems.countP (fun wid => msgBearing (runOps ops) wid)) : Int) :=
  (wf_runOps ops).counter_eq qid q hq

/-- C8 witness: a queue holding one message-bearing wait has
`msgs_on_queue = 1`, which the invariant reproduces. -/
theorem msgs_on_queue_invariant_witness :
    (runOps [WQOp.createq, WQOp.createmsg true, WQOp.addq 0 0]).queues 0
        = some ⟨[0], 1⟩
    ∧ (1 : Int) = (([0].countP (fun wid =>
        msgBearing (runOps [WQOp.createq, WQOp.createmsg true, WQOp.addq 0 0]) wid)) : Int) := by
  constructor
  · decide
  · exact msgs_on_queue_invariant
      [WQOp.createq, WQOp.createmsg true, WQOp.addq 0 0] 0 ⟨[0], 1⟩ (by decide)

/-- C10 witness: destroying a queue holding the only reference to a wait
destroys the wait and fires nothing. -/
theorem wait_queue_destroy_witness :
    (wait_queue_destroy 0
        ⟨fun k => if k = 0 then some ⟨1, true, ⟨false, false⟩⟩ else none,
         fun k => if k = 0 then some ⟨[0], 0⟩ else none, 1, 1, []⟩).trace = [] ∧
    (wait_queue_destroy 0
        ⟨fun k => if k = 0 then some ⟨1, true, ⟨false, false⟩⟩ else none,
         fun k => if k = 0 then some ⟨[0], 0⟩ else none, 1, 1, []⟩).waits 0 = none := by
  constructor
  · exact (wait_queue_destroy_releases_without_firing
      ⟨fun k => if k = 0 then some ⟨1, true, ⟨false, false⟩⟩ else none,
       fun k => if k = 0 then some ⟨[0], 0⟩ else none, 1, 1, []⟩ 0).1
  · have h := (wait_queue_destroy_releases_without_firing
      ⟨fun k => if k = 0 then some ⟨1, true, ⟨false, false⟩⟩ else none,
       fun k => if k = 0 then some ⟨[0], 0⟩ else none, 1, 1, []⟩ 0).2.2
      ⟨[0], 0⟩ rfl 0 ⟨1, true, ⟨false, false⟩⟩ rfl
    rw [h]
    decide

end Flux
